import Mathlib

set_option maxHeartbeats 1000000
set_option linter.unusedVariables false

/-! Shallow embedding of the PyFITS record codec (`lib/fitsrec.py`):
`FITS_rec` (the table record array with its lazy per-column conversion
cache), `FITS_record` (the windowed row view), the scale/zero decode and
encode pair from `FITS_rec.field` and `FITS_rec._scale_back`, the
variable-length (P-format) heap-layout pass, and the ASCII-table checks.
Machine floating point (numpy float64) is modelled by exact rationals. -/

/-- Python exceptions raised by the modelled code paths. -/
inductive PyErr where
  | indexError
  | keyError
  | valueError
  | typeError
deriving DecidableEq

/-- Whether an `Except` computation succeeded (no exception escaped). -/
def exOk {ε α : Type _} : Except ε α → Bool
  | .ok _ => true
  | .error _ => false

/-- The empty string, used as an out-of-range default for name lists. -/
def NOSTR : String := ""

/- List helpers (positional get/set used throughout the embedding). -/

theorem getD_set_self {α : Type _} :
    ∀ (l : List α) (i : ℕ) (a d : α), i < l.length → (l.set i a).getD i d = a
  | [], i, _, _, h => absurd h (by simp)
  | _ :: _, 0, _, _, _ => rfl
  | _ :: xs, i + 1, a, d, h => getD_set_self xs i a d (by simpa using h)

theorem getD_set_of_ne {α : Type _} :
    ∀ (l : List α) (i j : ℕ) (a d : α), i ≠ j → (l.set i a).getD j d = l.getD j d
  | [], _, _, _, _, _ => rfl
  | _ :: _, 0, 0, _, _, h => absurd rfl h
  | _ :: _, 0, _ + 1, _, _, _ => rfl
  | _ :: _, _ + 1, 0, _, _, _ => rfl
  | _ :: xs, i + 1, j + 1, a, d, h =>
      getD_set_of_ne xs i j a d (fun hc => h (by simpa using hc))

theorem getD_mem_of_lt {α : Type _} :
    ∀ (l : List α) (i : ℕ) (d : α), i < l.length → l.getD i d ∈ l
  | [], i, _, h => absurd h (by simp)
  | x :: _, 0, _, _ => List.mem_cons_self x _
  | _ :: xs, i + 1, d, h =>
      List.mem_cons_of_mem _ (getD_mem_of_lt xs i d (by simpa using h))

theorem mem_of_mem_set {α : Type _} :
    ∀ (l : List α) (i : ℕ) (a x : α), x ∈ l.set i a → x ∈ l ∨ x = a
  | [], _, _, _, h => Or.inl h
  | _ :: _, 0, _, _, h => by
      rcases List.mem_cons.mp h with h | h
      · exact Or.inr h
      · exact Or.inl (List.mem_cons_of_mem _ h)
  | y :: xs, i + 1, a, x, h => by
      rcases List.mem_cons.mp h with h | h
      · exact Or.inl (h ▸ List.mem_cons_self y xs)
      · rcases mem_of_mem_set xs i a x h with h | h
        · exact Or.inl (List.mem_cons_of_mem _ h)
        · exact Or.inr h

theorem getD_eq_default_of_le {α : Type _} :
    ∀ (l : List α) (i : ℕ) (d : α), l.length ≤ i → l.getD i d = d
  | [], _, _, _ => by simp [List.getD]
  | _ :: _, 0, _, h => absurd h (by simp)
  | _ :: xs, i + 1, d, h => getD_eq_default_of_le xs i d (by simpa using h)

/-! ### Scale factors (`FITS_rec._get_scale_factors`)

`_get_scale_factors` reports whether a column declares a scale
(`bscale` not the empty string, `None` or `1`) and a zero offset
(`bzero` not the empty string, `None` or `0`), normalising undeclared
factors to `1` and `0`.  The
embedding keeps the two declaration flags together with the (already
normalised) numeric factors. -/

structure ScaleFactors where
  scaleDecl : Bool
  zeroDecl : Bool
  bscale : ℚ
  bzero : ℚ
deriving DecidableEq

/-- The factors of a column with no scaling declared at all. -/
def SFd : ScaleFactors := ⟨false, false, 1, 0⟩

/-- One element of the `field` conversion for a scaled numeric column
(`fitsrec.py` lines 400-408): promote to double, multiply by `bscale`
when a scale is declared, then add `bzero` when a zero is declared. -/
def scaleValue (f : ScaleFactors) (x : ℚ) : ℚ :=
  let d := if f.scaleDecl then x * f.bscale else x
  if f.zeroDecl then d + f.bzero else d

/-- One element of the `_scale_back` inversion for a numeric column
(`fitsrec.py` lines 458-463): subtract `bzero` when a zero is declared,
then divide by `bscale` when a scale is declared. -/
def unscaleValue (f : ScaleFactors) (v : ℚ) : ℚ :=
  let d := if f.zeroDecl then v - f.bzero else v
  if f.scaleDecl then d / f.bscale else d

/-- Rounding as `numpy.around`: round to the nearest integer, halves to the even
neighbour (`fitsrec.py` line 509 rounds before an integral cast). -/
def npAround (q : ℚ) : ℤ :=
  if q - ⌊q⌋ < 1 / 2 then ⌊q⌋
  else if 1 / 2 < q - ⌊q⌋ then ⌊q⌋ + 1
  else if 2 ∣ ⌊q⌋ then ⌊q⌋ else ⌊q⌋ + 1

/-- Whether `field` stores the converted numeric column in the
conversion cache: it does exactly when a scale or a zero is declared
(`fitsrec.py` line 400, `_number and (_scale or _zero)`). -/
def cachesQ (f : ScaleFactors) : Bool := f.scaleDecl || f.zeroDecl

/-- The logical (scaled) column `field` computes from raw storage for a
scaled numeric column. -/
def decodeCol (f : ScaleFactors) (rawc : List ℚ) : List ℚ :=
  rawc.map (scaleValue f)

/-- The `_scale_back` regeneration of a floating-point storage column
(`fitsrec.py` lines 458-463, 510-511): the unscaled copy is written back
unchanged (the float cast is exact in this rational model). -/
def scaleBackNumFloat (f : ScaleFactors) (conv : List ℚ) : List ℚ :=
  conv.map (unscaleValue f)

/-- The `_scale_back` regeneration of an integral storage column
(`fitsrec.py` lines 507-511): the unscaled copy is rounded with
`numpy.around` and cast to the integral storage type. -/
def scaleBackNumInt (f : ScaleFactors) (conv : List ℚ) : List ℤ :=
  conv.map (fun q => npAround (unscaleValue f q))

theorem unscaleValue_scaleValue (f : ScaleFactors)
    (hnz : f.scaleDecl = true → f.bscale ≠ 0) (x : ℚ) :
    unscaleValue f (scaleValue f x) = x := by
  rcases f with ⟨sd, zd, bs, bz⟩
  cases sd <;> cases zd <;> simp only [unscaleValue, scaleValue] <;> simp_all

theorem npAround_intCast (z : ℤ) : npAround (z : ℚ) = z := by
  simp [npAround, Int.floor_intCast]

/-- C1: for a binary-table numeric column with a declared (non-zero)
scale or a declared zero offset, `_scale_back` applied to the logical
array that `field` materialised regenerates the original raw values:
exactly for floating-point storage, and after rounding to the nearest
integer for integral storage. -/
theorem scaled_roundtrip (f : ScaleFactors)
    (hnz : f.scaleDecl = true → f.bscale ≠ 0)
    (hdecl : f.scaleDecl = true ∨ f.zeroDecl = true) :
    (∀ rawc : List ℚ, scaleBackNumFloat f (decodeCol f rawc) = rawc) ∧
    (∀ rawi : List ℤ,
      scaleBackNumInt f (decodeCol f (rawi.map (fun z => (z : ℚ)))) = rawi) := by
  constructor
  · intro rawc
    induction rawc with
    | nil => rfl
    | cons a tl ih =>
        simp [scaleBackNumFloat, decodeCol] at ih ⊢
        exact ⟨unscaleValue_scaleValue f hnz a, ih⟩
  · intro rawi
    induction rawi with
    | nil => rfl
    | cons a tl ih =>
        simp [scaleBackNumInt, decodeCol] at ih ⊢
        exact ⟨by rw [unscaleValue_scaleValue f hnz]; exact npAround_intCast a, ih⟩

/-- Witness for `scaled_roundtrip` at scale 2, zero 3 on concrete columns. -/
theorem scaled_roundtrip_witness :
    scaleBackNumFloat ⟨true, true, 2, 3⟩ (decodeCol ⟨true, true, 2, 3⟩ [5, -4]) = [5, -4] ∧
    scaleBackNumInt ⟨true, true, 2, 3⟩
      (decodeCol ⟨true, true, 2, 3⟩ ([(-7 : ℤ), 11].map (fun z => (z : ℚ)))) = [-7, 11] :=
  ⟨(scaled_roundtrip ⟨true, true, 2, 3⟩ (fun _ => by norm_num) (Or.inl rfl)).1 [5, -4],
   (scaled_roundtrip ⟨true, true, 2, 3⟩ (fun _ => by norm_num) (Or.inl rfl)).2 [-7, 11]⟩

/-! ### Variable-length (P-format) columns

`_scale_back` (`fitsrec.py` lines 444-454) resets each P-format row
descriptor, stores each row's sequence length as the count, writes the
exclusive running sum of previous counts times the element size as the
byte offset, shifts all offsets by the heap size accumulated so far, and
grows the heap size by the column's total byte count.  `field`
(`fitsrec.py` lines 344-364) decodes a descriptor by seeking the backing
file to the stored offset plus the table's heap offset and reading
`count` elements. -/

/-- Exclusive running sums (`numpy.add.accumulate` of all but the last
count, written one slot later, slot 0 staying at its reset value 0). -/
def exclusiveSumsGo (acc : ℕ) : List ℕ → List ℕ
  | [] => []
  | x :: xs => acc :: exclusiveSumsGo (acc + x) xs

def exclusiveSums (l : List ℕ) : List ℕ := exclusiveSumsGo 0 l

/-- The P-format pass of `_scale_back`: from the materialised logical
rows, the element byte width `w` and the heap size accumulated so far,
produce the `(count, byte offset)` descriptor per row and the new
accumulated heap size. -/
def scaleBackP (w heapsize : ℕ) (rows : List (List ℤ)) :
    List (ℕ × ℕ) × ℕ :=
  let counts := rows.map List.length
  let offsets := (exclusiveSums counts).map (fun s => s * w + heapsize)
  (counts.zip offsets, heapsize + counts.sum * w)

/-- The P-format decode of `field` for a numeric element type: for each
row descriptor, seek the backing file to the stored byte offset plus the
table's heap offset and read `count` consecutive elements (the file is
indexed here in element units, hence the division by the element width). -/
def decodeP (w heapoffset : ℕ) (file : ℕ → ℤ) (descs : List (ℕ × ℕ)) :
    List (List ℤ) :=
  descs.map (fun d => (List.range d.1).map (fun k => file ((d.2 + heapoffset) / w + k)))

/-- Modelled from the spec: the persistence layer outside this module
writes each variable-length row's elements consecutively into the heap at
the byte offset recorded in its descriptor, so the heap region holds the
concatenation of the rows starting at the column's base element index. -/
def writeHeap (startElem : ℕ) (rows : List (List ℤ)) : ℕ → ℤ :=
  fun k => rows.flatten.getD (k - startElem) 0

theorem writeHeap_at (startElem off : ℕ) (rows : List (List ℤ)) :
    writeHeap startElem rows (startElem + off) = rows.flatten.getD off 0 := by
  unfold writeHeap
  congr 1
  omega

/-- C2: for a P-format column with logical row lengths `[0, 3, 1, 5]` and
element width `w`, the `_scale_back` pass stores those counts, offsets
`[0, 0, 3w, 4w]` shifted by the heap base accumulated so far, and grows
the heap size by `9w`; decoding the stored descriptors against the heap
written from them reproduces the original rows exactly. -/
theorem varlen_roundtrip (w b h : ℕ) (hw : 0 < w)
    (a1 a2 a3 d1 e1 e2 e3 e4 e5 : ℤ) :
    scaleBackP w (b * w) [[], [a1, a2, a3], [d1], [e1, e2, e3, e4, e5]] =
      ([(0, b * w), (3, b * w), (1, (b + 3) * w), (5, (b + 4) * w)], (b + 9) * w) ∧
    decodeP w (h * w) (writeHeap (b + h) [[], [a1, a2, a3], [d1], [e1, e2, e3, e4, e5]])
        (scaleBackP w (b * w) [[], [a1, a2, a3], [d1], [e1, e2, e3, e4, e5]]).1 =
      [[], [a1, a2, a3], [d1], [e1, e2, e3, e4, e5]] := by
  have hmain : scaleBackP w (b * w) [[], [a1, a2, a3], [d1], [e1, e2, e3, e4, e5]] =
      ([(0, b * w), (3, b * w), (1, (b + 3) * w), (5, (b + 4) * w)], (b + 9) * w) := by
    simp only [scaleBackP, exclusiveSums, exclusiveSumsGo, List.map_cons, List.map_nil,
      List.length_cons, List.length_nil, List.zip_cons_cons, List.zip_nil_right,
      List.sum_cons, List.sum_nil, Prod.mk.injEq, List.cons.injEq]
    norm_num
    refine ⟨⟨by ring, by ring⟩, by ring⟩
  refine ⟨hmain, ?_⟩
  rw [hmain]
  have hd0 : (b * w + h * w) / w = b + h := by
    rw [show b * w + h * w = (b + h) * w by ring]
    exact Nat.mul_div_cancel _ hw
  have hd3 : ((b + 3) * w + h * w) / w = (b + h) + 3 := by
    rw [show (b + 3) * w + h * w = ((b + h) + 3) * w by ring]
    exact Nat.mul_div_cancel _ hw
  have hd4 : ((b + 4) * w + h * w) / w = (b + h) + 4 := by
    rw [show (b + 4) * w + h * w = ((b + h) + 4) * w by ring]
    exact Nat.mul_div_cancel _ hw
  simp only [decodeP, List.map_cons, List.map_nil, hd0, hd3, hd4]
  simp only [List.range_succ, List.range_zero, List.map_append, List.map_cons, List.map_nil,
    List.nil_append, List.cons_append, List.append_nil, writeHeap, List.flatten]
  have s0 : b + h + 0 - (b + h) = 0 := by omega
  have s1 : b + h + 1 - (b + h) = 1 := by omega
  have s2 : b + h + 2 - (b + h) = 2 := by omega
  have t0 : b + h + 3 + 0 - (b + h) = 3 := by omega
  have u0 : b + h + 4 + 0 - (b + h) = 4 := by omega
  have u1 : b + h + 4 + 1 - (b + h) = 5 := by omega
  have u2 : b + h + 4 + 2 - (b + h) = 6 := by omega
  have u3 : b + h + 4 + 3 - (b + h) = 7 := by omega
  have u4 : b + h + 4 + 4 - (b + h) = 8 := by omega
  simp only [s0, s1, s2, t0, u0, u1, u2, u3, u4]
  rfl

/-- Witness for `varlen_roundtrip` with element width 2, heap base 2,
table heap offset 6 and concrete row elements. -/
theorem varlen_roundtrip_witness :
    scaleBackP 2 (1 * 2) [[], [(10 : ℤ), 11, 12], [13], [14, 15, 16, 17, 18]] =
      ([(0, 1 * 2), (3, 1 * 2), (1, (1 + 3) * 2), (5, (1 + 4) * 2)], (1 + 9) * 2) ∧
    decodeP 2 (3 * 2) (writeHeap (1 + 3) [[], [(10 : ℤ), 11, 12], [13], [14, 15, 16, 17, 18]])
        (scaleBackP 2 (1 * 2) [[], [(10 : ℤ), 11, 12], [13], [14, 15, 16, 17, 18]]).1 =
      [[], [(10 : ℤ), 11, 12], [13], [14, 15, 16, 17, 18]] :=
  varlen_roundtrip 2 1 3 (by decide) 10 11 12 13 14 15 16 17 18

/-! ### The table record array (`FITS_rec`)

The embedding keeps, per binary-table numeric column, its name, its
scale factors, its raw storage (one rational per row) and its conversion
cache slot (`FITS_rec._convert`, `None` until `field` materialises the
column).  This captures the `field` paths of `fitsrec.py` lines 397-414
(plain and scaled binary numeric columns) that the cache-consistency,
row-assignment and slicing claims exercise. -/

structure FITS_rec where
  names : List String
  specs : List ScaleFactors
  raw : List (List ℚ)
  convert : List (Option (List ℚ))
deriving DecidableEq

/-- The column count `self._nfields`. -/
def FITS_rec.nfields (t : FITS_rec) : ℕ := t.names.length

/-- The row count `len(self)` of the shared raw buffer. -/
def FITS_rec.nrows (t : FITS_rec) : ℕ := (t.raw.headD []).length

/-- The method `FITS_rec.field` for a binary-table numeric column (`fitsrec.py`
lines 324-414): return the cached logical column if the slot is
populated; otherwise convert the raw storage, caching the result exactly
when a scale or zero is declared, and returning the raw storage view
itself for a plain column.  The updated array (with its possibly grown
cache) is returned alongside the column. -/
def FITS_rec.field (t : FITS_rec) (indx : ℕ) : List ℚ × FITS_rec :=
  match t.convert.getD indx none with
  | some v => (v, t)
  | none =>
      let f := t.specs.getD indx SFd
      let rawc := t.raw.getD indx []
      if cachesQ f then
        (decodeCol f rawc, { t with convert := t.convert.set indx (some (decodeCol f rawc)) })
      else (rawc, t)

/-- The value of one cell as seen through `field` (logical view). -/
def FITS_rec.cellRead (t : FITS_rec) (indx r : ℕ) : ℚ :=
  ((t.field indx).1).getD r 0

/-- The cache slot after `field` has touched a column. -/
def touchSlot (f : ScaleFactors) (rawc : List ℚ) :
    Option (List ℚ) → Option (List ℚ)
  | some v => some v
  | none => if cachesQ f then some (decodeCol f rawc) else none

/-- The column `field` returns, as a function of the slot state. -/
def readSlot (f : ScaleFactors) (rawc : List ℚ) :
    Option (List ℚ) → List ℚ
  | some v => v
  | none => if cachesQ f then decodeCol f rawc else rawc

theorem field_fst (t : FITS_rec) (indx : ℕ) :
    (t.field indx).1 =
      readSlot (t.specs.getD indx SFd) (t.raw.getD indx []) (t.convert.getD indx none) := by
  unfold FITS_rec.field readSlot
  cases h : t.convert.getD indx none <;> simp [h] <;> split <;> rfl

theorem field_snd_names (t : FITS_rec) (indx : ℕ) :
    ((t.field indx).2).names = t.names := by
  unfold FITS_rec.field
  cases h : t.convert.getD indx none <;> simp [h] <;> split <;> rfl

theorem field_snd_specs (t : FITS_rec) (indx : ℕ) :
    ((t.field indx).2).specs = t.specs := by
  unfold FITS_rec.field
  cases h : t.convert.getD indx none <;> simp [h] <;> split <;> rfl

theorem field_snd_raw (t : FITS_rec) (indx : ℕ) :
    ((t.field indx).2).raw = t.raw := by
  unfold FITS_rec.field
  cases h : t.convert.getD indx none <;> simp [h] <;> split <;> rfl

theorem field_snd_nrows (t : FITS_rec) (indx : ℕ) :
    ((t.field indx).2).nrows = t.nrows := by
  unfold FITS_rec.nrows
  rw [field_snd_raw]

theorem field_snd_nfields (t : FITS_rec) (indx : ℕ) :
    ((t.field indx).2).nfields = t.nfields := by
  unfold FITS_rec.nfields
  rw [field_snd_names]

theorem field_snd_convert_length (t : FITS_rec) (indx : ℕ) :
    ((t.field indx).2).convert.length = t.convert.length := by
  unfold FITS_rec.field
  cases h : t.convert.getD indx none <;> simp [h]
  split <;> simp

theorem field_snd_convert_getD_ne (t : FITS_rec) (indx j : ℕ) (hne : j ≠ indx) :
    ((t.field indx).2).convert.getD j none = t.convert.getD j none := by
  unfold FITS_rec.field
  cases h : t.convert.getD indx none
  · simp only [h]
    split
    · exact getD_set_of_ne _ _ _ _ _ (Ne.symm hne)
    · rfl
  · simp only [h]

theorem field_snd_convert_getD_self (t : FITS_rec) (indx : ℕ)
    (hlen : indx < t.convert.length) :
    ((t.field indx).2).convert.getD indx none =
      touchSlot (t.specs.getD indx SFd) (t.raw.getD indx []) (t.convert.getD indx none) := by
  unfold FITS_rec.field touchSlot
  cases h : t.convert.getD indx none
  · simp only [h]
    split
    · exact getD_set_self _ _ _ _ hlen
    · exact h
  · simp only [h]

/-! ### Well-formedness of a table record array -/

/-- Structural invariants of a `FITS_rec`: one spec, one raw column and
one cache slot per column name; every raw column and every populated
cache slot holds one value per row; column names are unique. -/
structure FITS_rec.WF (t : FITS_rec) : Prop where
  specs_len : t.specs.length = t.names.length
  raw_len : t.raw.length = t.names.length
  conv_len : t.convert.length = t.names.length
  raw_rows : ∀ c ∈ t.raw, c.length = t.nrows
  conv_rows : ∀ o ∈ t.convert, (Option.getD o []).length = t.nrows ∨ o = none
  names_nodup : t.names.Nodup

theorem FITS_rec.WF.raw_getD {t : FITS_rec} (wf : t.WF) {indx : ℕ} (h : indx < t.nfields) :
    (t.raw.getD indx []).length = t.nrows :=
  wf.raw_rows _ (getD_mem_of_lt _ _ _ (by rw [wf.raw_len]; exact h))

theorem FITS_rec.WF.conv_some {t : FITS_rec} (wf : t.WF) {indx : ℕ} {v : List ℚ}
    (h : t.convert.getD indx none = some v) : v.length = t.nrows := by
  by_cases hlen : indx < t.convert.length
  · have hmem := getD_mem_of_lt t.convert indx none hlen
    rw [h] at hmem
    rcases wf.conv_rows _ hmem with hv | hv
    · simpa using hv
    · exact absurd hv (by simp)
  · rw [getD_eq_default_of_le _ _ _ (le_of_not_lt hlen)] at h
    exact absurd h (by simp)

theorem FITS_rec.WF.field_fst_length {t : FITS_rec} (wf : t.WF) {indx : ℕ}
    (h : indx < t.nfields) : ((t.field indx).1).length = t.nrows := by
  rw [field_fst]
  cases hs : t.convert.getD indx none
  · unfold readSlot
    by_cases hq : cachesQ (t.specs.getD indx SFd) = true
    · rw [if_pos hq]
      simp only [decodeCol, List.length_map]
      exact wf.raw_getD h
    · rw [if_neg hq]
      exact wf.raw_getD h
  · exact wf.conv_some hs

theorem FITS_rec.WF.field {t : FITS_rec} (wf : t.WF) (indx : ℕ) :
    ((t.field indx).2).WF := by
  refine ⟨?_, ?_, ?_, ?_, ?_, ?_⟩
  · rw [field_snd_specs, field_snd_names]
    exact wf.specs_len
  · rw [field_snd_raw, field_snd_names]
    exact wf.raw_len
  · rw [field_snd_convert_length, field_snd_names]
    exact wf.conv_len
  · rw [field_snd_raw, field_snd_nrows]
    exact wf.raw_rows
  · intro o ho
    rw [field_snd_nrows]
    unfold FITS_rec.field at ho
    cases hs : t.convert.getD indx none
    · rw [hs] at ho
      simp only at ho
      split at ho
      · rcases mem_of_mem_set _ _ _ _ ho with ho' | ho'
        · exact wf.conv_rows o ho'
        · subst ho'
          left
          by_cases hlt : indx < t.nfields
          · simp only [Option.getD_some, decodeCol, List.length_map]
            exact wf.raw_getD hlt
          · exfalso
            rename_i hq
            rw [getD_eq_default_of_le t.specs indx SFd
              (by rw [wf.specs_len]; exact le_of_not_lt hlt)] at hq
            simp [cachesQ, SFd] at hq
      · exact wf.conv_rows o ho
    · rw [hs] at ho
      exact wf.conv_rows o ho
  · rw [field_snd_names]
    exact wf.names_nodup

/-! ### Row slicing (`FITS_rec.__getitem__` with a slice key)

`__getitem__` (`fitsrec.py` lines 240-263) builds the sliced record
array, duplicates the column descriptors, touches **every** field of the
parent ("touch all fields to expand the original `._convert` list"), and
copies each populated parent cache slot restricted to the sliced rows
into the new array's cache. -/

/-- Python list slicing `l[i:j]` for non-negative bounds. -/
def pySlice {α : Type _} (i j : ℕ) (l : List α) : List α := (l.take j).drop i

/-- The `for idx in range(...)` loop body `dummy = self.field(idx)`:
touch the listed columns in order, keeping only the table. -/
def touchFields (t : FITS_rec) : List ℕ → FITS_rec
  | [] => t
  | indx :: rest => touchFields (t.field indx).2 rest

/-- Touch every column of the table (the slicing loop of `__getitem__`). -/
def FITS_rec.touchAll (t : FITS_rec) : FITS_rec :=
  touchFields t (List.range t.nfields)

/-- The method `FITS_rec.__getitem__` with a row-range key: the new array shares
the (sliced) raw storage, duplicates the descriptors, and holds each
parent cache slot (populated by the touch-all loop) sliced to the kept
rows. -/
def FITS_rec.getitemSlice (t : FITS_rec) (i j : ℕ) : FITS_rec :=
  let touched := t.touchAll
  { names := t.names
    specs := t.specs
    raw := t.raw.map (pySlice i j)
    convert := touched.convert.map (Option.map (pySlice i j)) }

theorem touchFields_names (l : List ℕ) :
    ∀ t : FITS_rec, (touchFields t l).names = t.names := by
  induction l with
  | nil => intro t; rfl
  | cons indx rest ih =>
      intro t
      rw [touchFields, ih, field_snd_names]

theorem touchFields_specs (l : List ℕ) :
    ∀ t : FITS_rec, (touchFields t l).specs = t.specs := by
  induction l with
  | nil => intro t; rfl
  | cons indx rest ih =>
      intro t
      rw [touchFields, ih, field_snd_specs]

theorem touchFields_raw (l : List ℕ) :
    ∀ t : FITS_rec, (touchFields t l).raw = t.raw := by
  induction l with
  | nil => intro t; rfl
  | cons indx rest ih =>
      intro t
      rw [touchFields, ih, field_snd_raw]

theorem touchFields_convert_length (l : List ℕ) :
    ∀ t : FITS_rec, (touchFields t l).convert.length = t.convert.length := by
  induction l with
  | nil => intro t; rfl
  | cons indx rest ih =>
      intro t
      rw [touchFields, ih, field_snd_convert_length]

theorem touchFields_getD_not_mem (l : List ℕ) (j : ℕ) :
    ∀ t : FITS_rec, j ∉ l →
      (touchFields t l).convert.getD j none = t.convert.getD j none := by
  induction l with
  | nil => intro t _; rfl
  | cons indx rest ih =>
      intro t hj
      rw [touchFields, ih _ (fun hc => hj (List.mem_cons_of_mem _ hc)),
        field_snd_convert_getD_ne _ _ _ (fun hc => hj (by rw [hc]; exact List.mem_cons_self _ _))]

theorem touchFields_getD_mem (l : List ℕ) (j : ℕ) :
    ∀ t : FITS_rec, l.Nodup → j ∈ l → j < t.convert.length →
      (touchFields t l).convert.getD j none =
        touchSlot (t.specs.getD j SFd) (t.raw.getD j []) (t.convert.getD j none) := by
  induction l with
  | nil => intro t _ hj; exact absurd hj (by simp)
  | cons indx rest ih =>
      intro t hnd hj hlen
      rcases List.mem_cons.mp hj with hj2 | hj2
      · subst hj2
        rw [touchFields,
          touchFields_getD_not_mem rest j _ (by simpa using (List.nodup_cons.mp hnd).1),
          field_snd_convert_getD_self t j hlen]
      · rw [touchFields, ih _ (List.nodup_cons.mp hnd).2 hj2
          (by rw [field_snd_convert_length]; exact hlen),
          field_snd_convert_getD_ne, field_snd_specs, field_snd_raw]
        intro hc
        subst hc
        exact (List.nodup_cons.mp hnd).1 hj2

theorem convert_map_getD (l : List (Option (List ℚ))) (i j k : ℕ) :
    (l.map (Option.map (pySlice i j))).getD k none =
      Option.map (pySlice i j) (l.getD k none) := by
  simp only [List.getD_eq_getElem?_getD, List.getElem?_map]
  cases l[k]? <;> simp

theorem raw_map_getD (l : List (List ℚ)) (i j k : ℕ) :
    (l.map (pySlice i j)).getD k [] = pySlice i j (l.getD k []) := by
  simp only [List.getD_eq_getElem?_getD, List.getElem?_map]
  cases l[k]? <;> simp [pySlice]

theorem touchAll_getD (t : FITS_rec) (wf : t.WF) (indx : ℕ) (hidx : indx < t.nfields) :
    (t.touchAll).convert.getD indx none =
      touchSlot (t.specs.getD indx SFd) (t.raw.getD indx []) (t.convert.getD indx none) :=
  touchFields_getD_mem (List.range t.nfields) indx t (List.nodup_range t.nfields)
    (List.mem_range.mpr hidx) (by rw [wf.conv_len]; exact hidx)

/-- C3 (amended): slicing a row range first touches every parent column,
so the new array's cache holds the parent's logical array restricted to
the sliced rows for every column that was already materialised *and*
for every not-yet-materialised column whose decode populates the cache
(scaled columns); only columns whose decode does not cache (plain
columns) stay unmaterialised, and their first access decodes from the
sliced shared raw storage. -/
theorem slicing_cache (t : FITS_rec) (wf : t.WF) (i j indx : ℕ)
    (hidx : indx < t.nfields) :
    (∀ v, t.convert.getD indx none = some v →
      (t.getitemSlice i j).convert.getD indx none = some (pySlice i j v)) ∧
    (t.convert.getD indx none = none → cachesQ (t.specs.getD indx SFd) = true →
      (t.getitemSlice i j).convert.getD indx none =
        some (pySlice i j (decodeCol (t.specs.getD indx SFd) (t.raw.getD indx [])))) ∧
    (t.convert.getD indx none = none → cachesQ (t.specs.getD indx SFd) = false →
      (t.getitemSlice i j).convert.getD indx none = none ∧
      ((t.getitemSlice i j).field indx).1 = pySlice i j (t.raw.getD indx [])) := by
  have hconv : (t.getitemSlice i j).convert.getD indx none =
      Option.map (pySlice i j) ((t.touchAll).convert.getD indx none) :=
    convert_map_getD _ i j indx
  rw [touchAll_getD t wf indx hidx] at hconv
  refine ⟨?_, ?_, ?_⟩
  · intro v hv
    rw [hconv, hv]
    rfl
  · intro hv hq
    rw [hconv, hv]
    unfold touchSlot
    rw [if_pos hq]
    rfl
  · intro hv hq
    have hq2 : ¬ (cachesQ (t.specs.getD indx SFd) = true) := by
      rw [hq]
      exact Bool.false_ne_true
    have hnone : (t.getitemSlice i j).convert.getD indx none = none := by
      rw [hconv, hv]
      unfold touchSlot
      rw [if_neg hq2]
      rfl
    refine ⟨hnone, ?_⟩
    rw [field_fst, hnone]
    unfold readSlot
    have hspecs : (t.getitemSlice i j).specs = t.specs := rfl
    have hraw : (t.getitemSlice i j).raw = t.raw.map (pySlice i j) := rfl
    rw [hspecs, hraw, raw_map_getD, if_neg hq2]

/-- The counterexample table for the slicing claim: one scaled column
(scale 2), four rows, nothing materialised yet. -/
def T1ce : FITS_rec := ⟨["a"], [⟨true, false, 2, 0⟩], [[1, 2, 3, 4]], [none]⟩

/-- C3 (counterexample): in `T1ce` column 0 is unmaterialised, yet after
slicing rows 2..5 the new array's cache slot for column 0 is populated
(with the correctly sliced logical values), not lazy: the touch-all loop
of `__getitem__` materialises every cacheable column. -/
theorem slicing_lazy_ce :
    T1ce.convert.getD 0 none = none ∧
    (T1ce.getitemSlice 2 5).convert.getD 0 none = some [6, 8] := by
  constructor
  · rfl
  · simp only [T1ce, FITS_rec.getitemSlice, FITS_rec.touchAll, FITS_rec.nfields,
      touchFields, FITS_rec.field, decodeCol, scaleValue, cachesQ, pySlice]
    norm_num [touchFields, FITS_rec.field, List.range_succ, pySlice, decodeCol,
      scaleValue, cachesQ]

/-- Witness for `slicing_cache`: a two-column table whose scaled column 0
is already materialised and whose plain column 1 is not. -/
def TW3 : FITS_rec :=
  ⟨["m", "p"], [⟨true, false, 2, 0⟩, SFd], [[1, 2], [3, 4]], [some [2, 4], none]⟩

theorem slicing_cache_witness :
    (TW3.getitemSlice 0 1).convert.getD 0 none = some (pySlice 0 1 [2, 4]) ∧
    (TW3.getitemSlice 0 1).convert.getD 1 none = none ∧
    ((TW3.getitemSlice 0 1).field 1).1 = pySlice 0 1 (TW3.raw.getD 1 []) :=
  ⟨(slicing_cache TW3 ⟨rfl, rfl, rfl, by decide, by decide, by decide⟩ 0 1 0
      (by decide)).1 [2, 4] rfl,
   ((slicing_cache TW3 ⟨rfl, rfl, rfl, by decide, by decide, by decide⟩ 0 1 1
      (by decide)).2.2 rfl rfl).1,
   ((slicing_cache TW3 ⟨rfl, rfl, rfl, by decide, by decide, by decide⟩ 0 1 1
      (by decide)).2.2 rfl rfl).2⟩

/-! ### The row view (`FITS_record`)

`FITS_record` (`fitsrec.py` lines 13-116) wraps one row of a `FITS_rec`
together with a column window `[start, end)`.  The positional and named
cell reads of `__getitem__`, the constructor clamping of `__init__` and
the re-windowing of `__getslice__` are embedded below. -/

structure FITS_record where
  array : FITS_rec
  row : ℤ
  start : ℤ
  stop : ℤ
deriving DecidableEq

/-- The constructor `FITS_record.__init__` (`fitsrec.py` lines 22-53): clamp the start
column to `nfields + 1` when it exceeds the column count, and replace a
non-positive or too-large end column by the column count. -/
def FITS_record.init (input : FITS_rec) (row startColumn endColumn : ℤ) :
    FITS_record :=
  let len : ℤ := input.nfields
  { array := input
    row := row
    start := if startColumn > len then len + 1 else startColumn
    stop := if endColumn ≤ 0 ∨ endColumn > len then len else endColumn }

/-- The method `FITS_record.__getslice__` (`fitsrec.py` lines 115-116): re-window
the same row with the given (absolute) column bounds. -/
def FITS_record.getslice (r : FITS_record) (i j : ℤ) : FITS_record :=
  FITS_record.init r.array r.row i j

/-- Modelled from the spec: `_get_index` of the external column module
resolves a column name to its absolute index, failing with NameNotFound
(`KeyError`) for an unknown name. -/
def getIndexName (names : List String) (key : String) : Except PyErr ℕ :=
  match names with
  | [] => .error .keyError
  | n :: rest =>
      if n = key then .ok 0 else (getIndexName rest key).map (fun k => k + 1)

/-- Modelled from the spec: `_get_index` of the external column module
resolves an in-range integer position to itself and fails with
IndexOutOfRange for an out-of-range position. -/
def getIndexInt (n : ℕ) (key : ℤ) : Except PyErr ℕ :=
  if 0 ≤ key ∧ key < (n : ℤ) then .ok key.toNat else .error .indexError

/-- Modelled from the spec: one-dimensional cell read of the external
array runtime (standard Python indexing, negative indices counted from
the end, out-of-range indices raising IndexError). -/
def pyGetCell (l : List ℚ) (i : ℤ) : Except PyErr ℚ :=
  if 0 ≤ i then
    if i < (l.length : ℤ) then .ok (l.getD i.toNat 0) else .error .indexError
  else
    if -(l.length : ℤ) ≤ i then .ok (l.getD (i + l.length).toNat 0)
    else .error .indexError

/-- Modelled from the spec: one-dimensional cell write of the external
array runtime (same index rules as the read). -/
def pySetCell (l : List ℚ) (i : ℤ) (v : ℚ) : Except PyErr (List ℚ) :=
  if 0 ≤ i then
    if i < (l.length : ℤ) then .ok (l.set i.toNat v) else .error .indexError
  else
    if -(l.length : ℤ) ≤ i then .ok (l.set (i + l.length).toNat v)
    else .error .indexError

/-- The method `FITS_record.__getitem__` with a string key (`fitsrec.py` lines
84-96): resolve the name against the wrapped array's column names, fail
with `KeyError` when the resolved index falls outside the window, and
otherwise read the cell `self.array.field(indx)[self.row]`. -/
def FITS_record.getitemName (r : FITS_record) (key : String) : Except PyErr ℚ :=
  match getIndexName r.array.names key with
  | .error e => .error e
  | .ok indx =>
      if (indx : ℤ) < r.start ∨ (indx : ℤ) > r.stop - 1 then .error .keyError
      else pyGetCell ((r.array.field indx).1) r.row

/-- The method `FITS_record.__getitem__` with an integer key (`fitsrec.py` lines
90-96): the absolute index is `key + start`; past the window's end the
lookup fails with `IndexError`, otherwise the cell is read through
`self.array.field(indx)[self.row]` (whose `_get_index` position check is
the modelled `getIndexInt`). -/
def FITS_record.getitemPos (r : FITS_record) (key : ℤ) : Except PyErr ℚ :=
  let indx := key + r.start
  if indx > r.stop - 1 then .error .indexError
  else
    match getIndexInt r.array.nfields indx with
    | .error e => .error e
    | .ok k => pyGetCell ((r.array.field k).1) r.row

/-- The Record View window invariant claimed by the specification. -/
def viewInv (r : FITS_record) : Prop :=
  0 ≤ r.start ∧ r.start ≤ r.stop ∧ r.stop ≤ (r.array.nfields : ℤ)

theorem pyGetCell_ok {t : FITS_rec} (wf : t.WF) {indx : ℕ} (hidx : indx < t.nfields)
    (row : ℕ) (hrow : row < t.nrows) :
    pyGetCell ((t.field indx).1) (row : ℤ) = .ok (t.cellRead indx row) := by
  unfold pyGetCell
  rw [wf.field_fst_length hidx]
  rw [if_pos (by positivity), if_pos (by exact_mod_cast hrow)]
  simp [FITS_rec.cellRead]

theorem getitemPos_ok {t : FITS_rec} (wf : t.WF) (v : FITS_record) (row k : ℕ)
    (hva : v.array = t) (hvr : v.row = (row : ℤ)) (key : ℤ)
    (hw : ¬ key + v.start > v.stop - 1) (hk : key + v.start = (k : ℤ))
    (hkn : k < t.nfields) (hrow : row < t.nrows) :
    v.getitemPos key = .ok (t.cellRead k row) := by
  unfold FITS_record.getitemPos
  rw [if_neg hw, hva, hk]
  unfold getIndexInt
  rw [if_pos ⟨by positivity, by exact_mod_cast hkn⟩]
  simp only [Int.toNat_natCast]
  rw [hvr]
  exact pyGetCell_ok wf hkn row hrow

/-- C4 (amended): over a 5-column table, a view with `start = 1`,
`end = 3` raises IndexError at position 2 (absolute column 3) and
returns the cell of absolute column 2 at position 1; but re-windowing it
with `__getslice__(0, 1)` produces a view whose window bounds are the
*absolute* columns `[0, 1)`, so the new view exposes absolute column 0
only (position 0 reads column 0, position 1 is out of the window). -/
theorem record_window (t : FITS_rec) (wf : t.WF) (h5 : t.nfields = 5)
    (row : ℕ) (hrow : row < t.nrows) (v : FITS_record)
    (hv : v = FITS_record.init t (row : ℤ) 1 3) :
    v.getitemPos 2 = .error .indexError ∧
    v.getitemPos 1 = .ok (t.cellRead 2 row) ∧
    (v.getslice 0 1).start = 0 ∧ (v.getslice 0 1).stop = 1 ∧
    (v.getslice 0 1).getitemPos 0 = .ok (t.cellRead 0 row) ∧
    (v.getslice 0 1).getitemPos 1 = .error .indexError := by
  have hlenZ : (t.nfields : ℤ) = 5 := by rw [h5]; rfl
  subst hv
  have hstart : (FITS_record.init t (row : ℤ) 1 3).start = 1 := by
    simp only [FITS_record.init, hlenZ]
    norm_num
  have hstop : (FITS_record.init t (row : ℤ) 1 3).stop = 3 := by
    simp only [FITS_record.init, hlenZ]
    norm_num
  have hslice : (FITS_record.init t (row : ℤ) 1 3).getslice 0 1 =
      FITS_record.init t (row : ℤ) 0 1 := rfl
  have hstart2 : (FITS_record.init t (row : ℤ) 0 1).start = 0 := by
    simp only [FITS_record.init, hlenZ]
    norm_num
  have hstop2 : (FITS_record.init t (row : ℤ) 0 1).stop = 1 := by
    simp only [FITS_record.init, hlenZ]
    norm_num
  refine ⟨?_, ?_, ?_, ?_, ?_, ?_⟩
  · unfold FITS_record.getitemPos
    rw [hstart, hstop]
    norm_num
  · exact getitemPos_ok wf _ row 2 rfl rfl 1
      (by rw [hstart, hstop]; norm_num) (by rw [hstart]; norm_num)
      (by rw [h5]; norm_num) hrow
  · rw [hslice, hstart2]
  · rw [hslice, hstop2]
  · rw [hslice]
    exact getitemPos_ok wf _ row 0 rfl rfl 0
      (by rw [hstart2, hstop2]; norm_num) (by rw [hstart2]; norm_num)
      (by rw [h5]; norm_num) hrow
  · rw [hslice]
    unfold FITS_record.getitemPos
    rw [hstart2, hstop2]
    norm_num

/-- A five-column, one-row table of plain (unscaled) columns. -/
def T5ce : FITS_rec :=
  ⟨["c0", "c1", "c2", "c3", "c4"], [SFd, SFd, SFd, SFd, SFd],
   [[10], [20], [30], [40], [50]], [none, none, none, none, none]⟩

/-- C4 (counterexample): re-windowing the `start = 1, end = 3` view of
the 5-column table with `__getslice__(0, 1)` yields a view whose only
readable position returns column 0's value 10 — not column 1's value 20
— refuting the claim that `window(0, 1)` exposes absolute column 1. -/
theorem record_window_ce :
    ((FITS_record.init T5ce 0 1 3).getslice 0 1).getitemPos 0 = .ok 10 ∧
    T5ce.cellRead 1 0 = 20 ∧
    ((FITS_record.init T5ce 0 1 3).getslice 0 1).getitemPos 1 = .error .indexError := by
  refine ⟨rfl, rfl, rfl⟩

/-- Witness for `record_window` on the concrete table `T5ce`, row 0. -/
theorem record_window_witness :
    (FITS_record.init T5ce ((0 : ℕ) : ℤ) 1 3).getitemPos 1 =
      .ok (T5ce.cellRead 2 0) ∧
    ((FITS_record.init T5ce ((0 : ℕ) : ℤ) 1 3).getslice 0 1).getitemPos 0 =
      .ok (T5ce.cellRead 0 0) :=
  ⟨(record_window T5ce ⟨rfl, rfl, rfl, by decide, by decide, by decide⟩ rfl 0
      (by decide) _ rfl).2.1,
   (record_window T5ce ⟨rfl, rfl, rfl, by decide, by decide, by decide⟩ rfl 0
      (by decide) _ rfl).2.2.2.2.1⟩

/-- C8 (amended): a view from single-row indexing (window arguments
`0, 0`) always satisfies `0 ≤ start ≤ end ≤ column_count`; for an
arbitrary re-windowing `(i, j)` the constructor only guarantees
`0 ≤ end ≤ column_count`, and the full invariant holds whenever
`0 ≤ i ≤ j ≤ column_count` — not for every integer pair. -/
theorem record_invariant (t : FITS_rec) (row i j : ℤ) :
    viewInv (FITS_record.init t row 0 0) ∧
    (0 ≤ (FITS_record.init t row i j).stop ∧
      (FITS_record.init t row i j).stop ≤ (t.nfields : ℤ)) ∧
    (0 ≤ i → i ≤ j → j ≤ (t.nfields : ℤ) → viewInv (FITS_record.init t row i j)) := by
  refine ⟨?_, ⟨?_, ?_⟩, ?_⟩ <;>
    simp only [viewInv, FITS_record.init] <;>
    split_ifs <;>
    omega

/-- C8 (counterexample): re-windowing a full-row view of the 5-column
table with the integer pair `(3, 2)` yields `start = 3 > 2 = end`,
violating the claimed invariant `0 ≤ start ≤ end ≤ column_count`. -/
theorem record_invariant_ce :
    ((FITS_record.init T5ce 0 0 0).getslice 3 2).start = 3 ∧
    ((FITS_record.init T5ce 0 0 0).getslice 3 2).stop = 2 ∧
    ¬ viewInv ((FITS_record.init T5ce 0 0 0).getslice 3 2) := by
  refine ⟨rfl, rfl, ?_⟩
  intro h
  exact absurd h.2.1 (by decide)

/-- Witness for `record_invariant` (its windowed part at `(1, 3)`). -/
theorem record_invariant_witness :
    viewInv (FITS_record.init T5ce 0 0 0) ∧ viewInv (FITS_record.init T5ce 0 1 3) :=
  ⟨(record_invariant T5ce 0 1 3).1,
   (record_invariant T5ce 0 1 3).2.2 (by decide) (by decide) (by decide)⟩

/-! ### Row access and assignment (`FITS_rec.__getitem__` /
`__setitem__` / `__setslice__`)

`__getitem__` with an integer key (`fitsrec.py` lines 265-272) raises
`IndexError` only for `key >= len(self)` and otherwise wraps the row in
a fresh full-window `FITS_record`.  `__setitem__` (lines 274-287)
dispatches on the value: a `FITS_record` is matched column-name by
column-name, a tuple or list must have exactly `_nfields` entries, and
anything else raises `TypeError`.  `__setslice__` (lines 289-296) clamps
the bounds, truncates to the value list's length and assigns row by
row. -/

/-- The method `FITS_rec.__getitem__` with an integer row key. -/
def FITS_rec.getitemInt (t : FITS_rec) (key : ℤ) : Except PyErr FITS_record :=
  if key ≥ (t.nrows : ℤ) then .error .indexError
  else .ok (FITS_record.init t key 0 0)

/-- One cell write `self.field(indx)[row] = val`: touch the column via
`field`, then write through the returned array — the conversion cache
when the slot is populated, the raw storage otherwise. -/
def FITS_rec.setCellAt (t : FITS_rec) (indx : ℕ) (row : ℤ) (val : ℚ) :
    Except PyErr FITS_rec :=
  match (t.field indx).2.convert.getD indx none with
  | some l =>
      match pySetCell l row val with
      | .error e => .error e
      | .ok l2 =>
          .ok { (t.field indx).2 with
                convert := (t.field indx).2.convert.set indx (some l2) }
  | none =>
      match pySetCell ((t.field indx).2.raw.getD indx []) row val with
      | .error e => .error e
      | .ok l2 => .ok { (t.field indx).2 with raw := (t.field indx).2.raw.set indx l2 }

/-- The tuple branch of `__setitem__`: `self.field(idx)[row] = value[idx]`
for each listed column index in order. -/
def setFieldsFromList (t : FITS_rec) (row : ℤ) (vals : List ℚ) :
    List ℕ → Except PyErr FITS_rec
  | [] => .ok t
  | indx :: rest =>
      match t.setCellAt indx row (vals.getD indx 0) with
      | .error e => .error e
      | .ok t2 => setFieldsFromList t2 row vals rest

/-- The `FITS_record` branch of `__setitem__`:
`self.field(self.names[idx])[row] = value.field(self.names[idx])` for
each listed column index in order — the value is read from the view (by
name, subject to its window check) and written to the matching column. -/
def setFieldsFromView (t : FITS_rec) (row : ℤ) (v : FITS_record) :
    List ℕ → Except PyErr FITS_rec
  | [] => .ok t
  | indx :: rest =>
      match v.getitemName (t.names.getD indx NOSTR) with
      | .error e => .error e
      | .ok cell =>
          match getIndexName t.names (t.names.getD indx NOSTR) with
          | .error e => .error e
          | .ok k =>
              match t.setCellAt k row cell with
              | .error e => .error e
              | .ok t2 => setFieldsFromView t2 row v rest

/-- The value handed to `FITS_rec.__setitem__`. -/
inductive RowValue where
  | record (v : FITS_record)
  | tuple (vals : List ℚ)
  | other

/-- The method `FITS_rec.__setitem__` (`fitsrec.py` lines 274-287). -/
def FITS_rec.setitem (t : FITS_rec) (row : ℤ) (value : RowValue) :
    Except PyErr FITS_rec :=
  match value with
  | RowValue.record v => setFieldsFromView t row v (List.range t.nfields)
  | RowValue.tuple vals =>
      if t.nfields = vals.length then setFieldsFromList t row vals (List.range t.nfields)
      else .error .valueError
  | RowValue.other => .error .typeError

/-- The integers of `range(a, b)`, counted out one by one. -/
def intRangeGo (a : ℤ) : ℕ → List ℤ
  | 0 => []
  | n + 1 => a :: intRangeGo (a + 1) n

/-- The integers of `range(a, b)`. -/
def intRange (a b : ℤ) : List ℤ := intRangeGo a (b - a).toNat

/-- The row loop of `FITS_rec.__setslice__`. -/
def setSliceAux (s : ℤ) (value : List (List ℚ)) :
    FITS_rec → List ℤ → Except PyErr FITS_rec
  | t, [] => .ok t
  | t, indx :: rest =>
      match t.setitem indx (RowValue.tuple (value.getD (indx - s).toNat [])) with
      | .error e => .error e
      | .ok t2 => setSliceAux s value t2 rest

/-- The method `FITS_rec.__setslice__` (`fitsrec.py` lines 289-296): clamp the end
to the row count (`min(len(self), end)`) and to zero, clamp the start to
zero, truncate the end to `start + len(value)`, then assign
`value[idx - start]` to each row of the resulting range in turn. -/
def FITS_rec.setslice (t : FITS_rec) (start stop : ℤ) (value : List (List ℚ)) :
    Except PyErr FITS_rec :=
  setSliceAux (max 0 start) value t
    (intRange (max 0 start)
      (min (max 0 (min (t.nrows : ℤ) stop)) (max 0 start + (value.length : ℤ))))

theorem pySetCell_ok_nonneg (l : List ℚ) (i : ℤ) (v : ℚ)
    (h0 : 0 ≤ i) (hlt : i < (l.length : ℤ)) :
    pySetCell l i v = .ok (l.set i.toNat v) := by
  unfold pySetCell
  rw [if_pos h0, if_pos hlt]

theorem pySetCell_ok_neg (l : List ℚ) (i : ℤ) (v : ℚ)
    (hneg : i < 0) (hge : -(l.length : ℤ) ≤ i) :
    pySetCell l i v = .ok (l.set (i + l.length).toNat v) := by
  unfold pySetCell
  rw [if_neg (not_le.mpr hneg), if_pos hge]

theorem pySetCell_err (l : List ℚ) (i : ℤ) (v : ℚ)
    (h : i < -(l.length : ℤ) ∨ (l.length : ℤ) ≤ i) :
    pySetCell l i v = .error .indexError := by
  unfold pySetCell
  split_ifs with h1 h2 h3 <;> first | rfl | (exfalso; omega)

theorem headD_length_set (raw : List (List ℚ)) (indx : ℕ) (l2 : List ℚ)
    (hlen : l2.length = (raw.getD indx []).length) :
    ((raw.set indx l2).headD []).length = (raw.headD []).length := by
  cases raw with
  | nil => rfl
  | cons c rest =>
      cases indx with
      | zero => simpa using hlen
      | succ n => rfl

theorem cellRead_congr {t1 t2 : FITS_rec} (k : ℕ)
    (hc : t1.convert.getD k none = t2.convert.getD k none)
    (hs : t1.specs.getD k SFd = t2.specs.getD k SFd)
    (hr : t1.raw.getD k [] = t2.raw.getD k []) (r : ℕ) :
    t1.cellRead k r = t2.cellRead k r := by
  unfold FITS_rec.cellRead
  rw [field_fst, field_fst, hc, hs, hr]

theorem readSlot_eq_of_touchSlot_some {f : ScaleFactors} {rawc : List ℚ}
    {c : Option (List ℚ)} {x : List ℚ} (h : touchSlot f rawc c = some x) :
    readSlot f rawc c = x := by
  cases c with
  | some v =>
      simp only [touchSlot] at h
      simp only [readSlot]
      exact Option.some_injective _ h
  | none =>
      simp only [touchSlot] at h
      simp only [readSlot]
      by_cases hq : cachesQ f = true
      · rw [if_pos hq] at h ⊢
        exact Option.some_injective _ h
      · rw [if_neg hq] at h
        exact absurd h (by simp)

theorem touchSlot_none_inv {f : ScaleFactors} {rawc : List ℚ}
    {c : Option (List ℚ)} (h : touchSlot f rawc c = none) :
    c = none ∧ cachesQ f = false := by
  cases c with
  | some v =>
      simp only [touchSlot] at h
      exact absurd h (by simp)
  | none =>
      refine ⟨rfl, ?_⟩
      simp only [touchSlot] at h
      by_cases hq : cachesQ f = true
      · rw [if_pos hq] at h
        exact absurd h (by simp)
      · simpa using hq

/-- Where a cell write through `field` lands: in the conversion cache
when the column's slot is populated, in the raw storage otherwise. -/
def writeBack (t : FITS_rec) (indx : ℕ) (l2 : List ℚ) : FITS_rec :=
  match t.convert.getD indx none with
  | some _ => { t with convert := t.convert.set indx (some l2) }
  | none => { t with raw := t.raw.set indx l2 }

theorem setCellAt_eq (t : FITS_rec) (indx : ℕ) (row : ℤ) (val : ℚ)
    (hlen : indx < t.convert.length) :
    t.setCellAt indx row val =
      match pySetCell ((t.field indx).1) row val with
      | .error e => .error e
      | .ok l2 => .ok (writeBack (t.field indx).2 indx l2) := by
  have hslot := field_snd_convert_getD_self t indx hlen
  unfold FITS_rec.setCellAt writeBack
  cases hs : (t.field indx).2.convert.getD indx none with
  | some l =>
      have hfst : (t.field indx).1 = l := by
        rw [field_fst]
        refine readSlot_eq_of_touchSlot_some ?_
        rw [← hslot]
        exact hs
      rw [hfst]
  | none =>
      have hs2 := hs
      rw [hslot] at hs2
      obtain ⟨hcnone, hqfalse⟩ := touchSlot_none_inv hs2
      have hfst : (t.field indx).1 = t.raw.getD indx [] := by
        rw [field_fst, hcnone]
        simp only [readSlot]
        rw [if_neg (by rw [hqfalse]; exact Bool.false_ne_true)]
      rw [field_snd_raw, hfst]

theorem writeBack_names (t : FITS_rec) (indx : ℕ) (l2 : List ℚ) :
    (writeBack t indx l2).names = t.names := by
  unfold writeBack
  cases h : t.convert.getD indx none <;> rfl

theorem writeBack_specs (t : FITS_rec) (indx : ℕ) (l2 : List ℚ) :
    (writeBack t indx l2).specs = t.specs := by
  unfold writeBack
  cases h : t.convert.getD indx none <;> rfl

theorem writeBack_convert_length (t : FITS_rec) (indx : ℕ) (l2 : List ℚ) :
    (writeBack t indx l2).convert.length = t.convert.length := by
  unfold writeBack
  cases h : t.convert.getD indx none
  · rfl
  · simp

theorem writeBack_raw_length (t : FITS_rec) (indx : ℕ) (l2 : List ℚ) :
    (writeBack t indx l2).raw.length = t.raw.length := by
  unfold writeBack
  cases h : t.convert.getD indx none
  · simp
  · rfl

theorem writeBack_nrows (t : FITS_rec) (indx : ℕ) (l2 : List ℚ)
    (hlen : l2.length = (t.raw.getD indx []).length) :
    (writeBack t indx l2).nrows = t.nrows := by
  unfold writeBack
  cases h : t.convert.getD indx none
  · exact headD_length_set t.raw indx l2 hlen
  · rfl

theorem writeBack_convert_getD_ne (t : FITS_rec) (indx k : ℕ) (l2 : List ℚ)
    (hne : k ≠ indx) :
    (writeBack t indx l2).convert.getD k none = t.convert.getD k none := by
  unfold writeBack
  cases h : t.convert.getD indx none
  · rfl
  · exact getD_set_of_ne _ _ _ _ _ (Ne.symm hne)

theorem writeBack_raw_getD_ne (t : FITS_rec) (indx k : ℕ) (l2 : List ℚ)
    (hne : k ≠ indx) :
    (writeBack t indx l2).raw.getD k [] = t.raw.getD k [] := by
  unfold writeBack
  cases h : t.convert.getD indx none
  · exact getD_set_of_ne _ _ _ _ _ (Ne.symm hne)
  · rfl

theorem writeBack_field_fst (t : FITS_rec) (indx : ℕ) (l2 : List ℚ)
    (hconv : indx < t.convert.length) (hraw : indx < t.raw.length)
    (hq : t.convert.getD indx none = none →
      cachesQ (t.specs.getD indx SFd) = false) :
    ((writeBack t indx l2).field indx).1 = l2 := by
  rw [field_fst]
  unfold writeBack
  cases h : t.convert.getD indx none
  · have hc : ({ t with raw := t.raw.set indx l2 } :
        FITS_rec).convert.getD indx none = none := h
    have hsp : ({ t with raw := t.raw.set indx l2 } : FITS_rec).specs = t.specs := rfl
    have hrw : ({ t with raw := t.raw.set indx l2 } : FITS_rec).raw =
        t.raw.set indx l2 := rfl
    rw [hc, hsp, hrw]
    simp only [readSlot]
    rw [if_neg (by rw [hq h]; exact Bool.false_ne_true)]
    exact getD_set_self _ _ _ _ hraw
  · have hc : ({ t with convert := t.convert.set indx (some l2) } :
        FITS_rec).convert.getD indx none = some l2 := getD_set_self _ _ _ _ hconv
    rw [hc]
    rfl

theorem writeBack_WF {t : FITS_rec} (wf : t.WF) {indx : ℕ} {l2 : List ℚ}
    (hidx : indx < t.nfields) (hlen : l2.length = t.nrows) :
    (writeBack t indx l2).WF := by
  have hrawlen : (t.raw.getD indx []).length = t.nrows := wf.raw_getD hidx
  have hnr : (writeBack t indx l2).nrows = t.nrows :=
    writeBack_nrows t indx l2 (by rw [hlen, hrawlen])
  refine ⟨?_, ?_, ?_, ?_, ?_, ?_⟩
  · rw [writeBack_specs, writeBack_names]
    exact wf.specs_len
  · rw [writeBack_raw_length, writeBack_names]
    exact wf.raw_len
  · rw [writeBack_convert_length, writeBack_names]
    exact wf.conv_len
  · intro c hc
    rw [hnr]
    unfold writeBack at hc
    cases h : t.convert.getD indx none <;> rw [h] at hc
    · rcases mem_of_mem_set _ _ _ _ hc with hc2 | hc2
      · exact wf.raw_rows c hc2
      · rw [hc2]
        exact hlen
    · exact wf.raw_rows c hc
  · intro o ho
    rw [hnr]
    unfold writeBack at ho
    cases h : t.convert.getD indx none <;> rw [h] at ho
    · exact wf.conv_rows o ho
    · rcases mem_of_mem_set _ _ _ _ ho with ho2 | ho2
      · exact wf.conv_rows o ho2
      · rw [ho2]
        left
        simpa using hlen
  · rw [writeBack_names]
    exact wf.names_nodup

theorem setCellAt_ok {t : FITS_rec} (wf : t.WF) {indx : ℕ} (hidx : indx < t.nfields)
    {row : ℤ} (hlo : -(t.nrows : ℤ) ≤ row) (hhi : row < (t.nrows : ℤ)) (val : ℚ) :
    ∃ t2, t.setCellAt indx row val = .ok t2 ∧ t2.WF ∧
      t2.names = t.names ∧ t2.specs = t.specs ∧ t2.nrows = t.nrows ∧
      (0 ≤ row → ∀ k r, t2.cellRead k r =
        if k = indx ∧ r = row.toNat then val else t.cellRead k r) := by
  have wf2 : ((t.field indx).2).WF := wf.field indx
  have hidx2 : indx < ((t.field indx).2).nfields := by
    rw [field_snd_nfields]
    exact hidx
  have hfl : ((t.field indx).1).length = t.nrows := wf.field_fst_length hidx
  have hq2 : (t.field indx).2.convert.getD indx none = none →
      cachesQ ((t.field indx).2.specs.getD indx SFd) = false := by
    intro hnone
    rw [field_snd_convert_getD_self t indx (by rw [wf.conv_len]; exact hidx)] at hnone
    rw [field_snd_specs]
    exact (touchSlot_none_inv hnone).2
  have hconv2 : indx < (t.field indx).2.convert.length := by
    rw [field_snd_convert_length, wf.conv_len]
    exact hidx
  have hraw2 : indx < (t.field indx).2.raw.length := by
    rw [field_snd_raw, wf.raw_len]
    exact hidx
  rw [setCellAt_eq t indx row val (by rw [wf.conv_len]; exact hidx)]
  by_cases h0 : 0 ≤ row
  · rw [pySetCell_ok_nonneg _ _ _ h0 (by rw [hfl]; exact hhi)]
    have hsetlen : (((t.field indx).1).set row.toNat val).length = t.nrows := by
      rw [List.length_set]
      exact hfl
    refine ⟨_, rfl, ?_, ?_, ?_, ?_, ?_⟩
    · exact writeBack_WF wf2 hidx2 (by rw [hsetlen, field_snd_nrows])
    · rw [writeBack_names, field_snd_names]
    · rw [writeBack_specs, field_snd_specs]
    · rw [writeBack_nrows _ _ _
        (by rw [hsetlen, field_snd_raw, wf.raw_getD hidx]), field_snd_nrows]
    · intro _ k r
      by_cases hk : k = indx
      · subst hk
        have hwf : ((writeBack (t.field k).2 k (((t.field k).1).set row.toNat val)).field
            k).1 = ((t.field k).1).set row.toNat val :=
          writeBack_field_fst _ _ _ hconv2 hraw2 hq2
        unfold FITS_rec.cellRead
        rw [hwf]
        by_cases hr : r = row.toNat
        · subst hr
          rw [if_pos ⟨rfl, rfl⟩]
          exact getD_set_self _ _ _ _ (by rw [hfl]; omega)
        · rw [if_neg (by intro hc; exact hr hc.2)]
          rw [getD_set_of_ne _ _ _ _ _ (fun hc => hr hc.symm)]
      · rw [if_neg (by intro hc; exact hk hc.1)]
        refine cellRead_congr k ?_ ?_ ?_ r
        · rw [writeBack_convert_getD_ne _ _ _ _ hk]
          exact field_snd_convert_getD_ne t indx k hk
        · rw [writeBack_specs, field_snd_specs]
        · rw [writeBack_raw_getD_ne _ _ _ _ hk, field_snd_raw]
  · have hneg : row < 0 := lt_of_not_le h0
    rw [pySetCell_ok_neg _ _ _ hneg (by rw [hfl]; exact hlo)]
    have hsetlen : (((t.field indx).1).set (row + ((t.field indx).1).length).toNat
        val).length = t.nrows := by
      rw [List.length_set]
      exact hfl
    refine ⟨_, rfl, ?_, ?_, ?_, ?_, ?_⟩
    · exact writeBack_WF wf2 hidx2 (by rw [hsetlen, field_snd_nrows])
    · rw [writeBack_names, field_snd_names]
    · rw [writeBack_specs, field_snd_specs]
    · rw [writeBack_nrows _ _ _
        (by rw [hsetlen, field_snd_raw, wf.raw_getD hidx]), field_snd_nrows]
    · intro h0c
      exact absurd h0c h0

theorem setCellAt_err {t : FITS_rec} (wf : t.WF) {indx : ℕ} (hidx : indx < t.nfields)
    {row : ℤ} (h : row < -(t.nrows : ℤ) ∨ (t.nrows : ℤ) ≤ row) (val : ℚ) :
    t.setCellAt indx row val = .error .indexError := by
  have hfl : ((t.field indx).1).length = t.nrows := wf.field_fst_length hidx
  rw [setCellAt_eq t indx row val (by rw [wf.conv_len]; exact hidx)]
  rw [pySetCell_err _ _ _ (by rw [hfl]; exact h)]

theorem nfields_eq_of_names {t1 t2 : FITS_rec} (h : t1.names = t2.names) :
    t1.nfields = t2.nfields := by
  unfold FITS_rec.nfields
  rw [h]

theorem setFieldsFromList_ok (row : ℤ) (vals : List ℚ) :
    ∀ (l : List ℕ) (t : FITS_rec), t.WF → (∀ i ∈ l, i < t.nfields) →
      -(t.nrows : ℤ) ≤ row → row < (t.nrows : ℤ) →
      ∃ t2, setFieldsFromList t row vals l = .ok t2 ∧ t2.WF ∧
        t2.names = t.names ∧ t2.specs = t.specs ∧ t2.nrows = t.nrows ∧
        (0 ≤ row → ∀ k r, t2.cellRead k r =
          if k ∈ l ∧ r = row.toNat then vals.getD k 0 else t.cellRead k r) := by
  intro l
  induction l with
  | nil =>
      intro t wf _ _ _
      exact ⟨t, rfl, wf, rfl, rfl, rfl, by intro _ k r; rw [if_neg (by simp)]⟩
  | cons indx rest ih =>
      intro t wf hbound hlo hhi
      obtain ⟨t1, heq1, wf1, hn1, hs1, hr1, heff1⟩ :=
        setCellAt_ok wf (hbound indx (List.mem_cons_self _ _)) hlo hhi (vals.getD indx 0)
      obtain ⟨t2, heq2, wf2, hn2, hs2, hr2, heff2⟩ :=
        ih t1 wf1
          (fun i hi => by
            rw [nfields_eq_of_names hn1]
            exact hbound i (List.mem_cons_of_mem _ hi))
          (by rw [hr1]; exact hlo) (by rw [hr1]; exact hhi)
      refine ⟨t2, ?_, wf2, by rw [hn2, hn1], by rw [hs2, hs1], by rw [hr2, hr1], ?_⟩
      · simp only [setFieldsFromList]
        rw [heq1]
        exact heq2
      · intro h0 k r
        rw [heff2 h0 k r]
        by_cases hmem : k ∈ rest ∧ r = row.toNat
        · rw [if_pos hmem, if_pos ⟨List.mem_cons_of_mem _ hmem.1, hmem.2⟩]
        · rw [if_neg hmem, heff1 h0 k r]
          by_cases hk : k = indx ∧ r = row.toNat
          · rw [if_pos hk, if_pos ⟨by rw [hk.1]; exact List.mem_cons_self _ _, hk.2⟩,
              hk.1]
          · rw [if_neg hk, if_neg ?_]
            rintro ⟨hc1, hc2⟩
            rcases List.mem_cons.mp hc1 with hc | hc
            · exact hk ⟨hc, hc2⟩
            · exact hmem ⟨hc, hc2⟩

theorem setitem_tuple_ok {t : FITS_rec} (wf : t.WF) {row : ℤ} {vals : List ℚ}
    (hlen : vals.length = t.nfields)
    (hlo : -(t.nrows : ℤ) ≤ row) (hhi : row < (t.nrows : ℤ)) :
    ∃ t2, t.setitem row (RowValue.tuple vals) = .ok t2 ∧ t2.WF ∧
      t2.names = t.names ∧ t2.specs = t.specs ∧ t2.nrows = t.nrows ∧
      (0 ≤ row → ∀ k r, t2.cellRead k r =
        if k < t.nfields ∧ r = row.toNat then vals.getD k 0 else t.cellRead k r) := by
  obtain ⟨t2, heq, wf2, hn, hs, hr, heff⟩ :=
    setFieldsFromList_ok row vals (List.range t.nfields) t wf
      (fun i hi => List.mem_range.mp hi) hlo hhi
  refine ⟨t2, ?_, wf2, hn, hs, hr, ?_⟩
  · simp only [FITS_rec.setitem]
    rw [if_pos hlen.symm]
    exact heq
  · intro h0 k r
    rw [heff h0 k r]
    by_cases hk : k < t.nfields ∧ r = row.toNat
    · rw [if_pos ⟨List.mem_range.mpr hk.1, hk.2⟩, if_pos hk]
    · rw [if_neg (by intro hc; exact hk ⟨List.mem_range.mp hc.1, hc.2⟩), if_neg hk]

theorem setitem_tuple_err {t : FITS_rec} (wf : t.WF) {row : ℤ} {vals : List ℚ}
    (hlen : vals.length = t.nfields) (hnf : 0 < t.nfields)
    (h : row < -(t.nrows : ℤ) ∨ (t.nrows : ℤ) ≤ row) :
    t.setitem row (RowValue.tuple vals) = .error .indexError := by
  simp only [FITS_rec.setitem]
  rw [if_pos hlen.symm]
  obtain ⟨m, hm⟩ : ∃ m, t.nfields = m + 1 := ⟨t.nfields - 1, by omega⟩
  rw [hm, List.range_succ_eq_map]
  simp only [setFieldsFromList]
  rw [setCellAt_err wf (by omega) h]

/-- C7 (amended): single-row indexing `__getitem__(i)` raises
`IndexError` exactly when `i ≥ row_count` — every `i < row_count`,
including every negative `i`, returns a row view without error; and
whole-row assignment `__setitem__(i, tuple)` performs no bounds check of
its own, so it succeeds exactly on the underlying array runtime's range
`-row_count ≤ i < row_count` (negative rows addressing from the end) and
raises `IndexError` outside it. -/
theorem row_bounds (t : FITS_rec) (wf : t.WF) (i : ℤ) (vals : List ℚ)
    (hlen : vals.length = t.nfields) (hnf : 0 < t.nfields) :
    (exOk (t.getitemInt i) = true ↔ i < (t.nrows : ℤ)) ∧
    (exOk (t.setitem i (RowValue.tuple vals)) = true ↔
      (-(t.nrows : ℤ) ≤ i ∧ i < (t.nrows : ℤ))) := by
  constructor
  · unfold FITS_rec.getitemInt
    by_cases h : i ≥ (t.nrows : ℤ)
    · rw [if_pos h]
      simp [exOk]
      omega
    · rw [if_neg h]
      simp [exOk]
      omega
  · constructor
    · intro hok
      by_contra hc
      rw [setitem_tuple_err wf hlen hnf (by omega)] at hok
      simp [exOk] at hok
    · rintro ⟨hlo, hhi⟩
      obtain ⟨t2, heq, -⟩ := setitem_tuple_ok wf hlen hlo hhi
      rw [heq]
      rfl

/-- A one-column, three-row table of a plain column. -/
def T3ce : FITS_rec := ⟨["a"], [SFd], [[1, 2, 3]], [none]⟩

/-- C7 (counterexample): `__getitem__(-1)` and `__setitem__(-1, (9,))`
on a three-row table both succeed (negative indices address rows from
the end), whereas the claim demands `IndexOutOfRange` for every negative
index. -/
theorem row_bounds_ce :
    exOk (T3ce.getitemInt (-1)) = true ∧
    exOk (T3ce.setitem (-1) (RowValue.tuple [9])) = true := by
  constructor
  · rfl
  · rfl

/-- Witness for `row_bounds` on the concrete table `T3ce`. -/
theorem row_bounds_witness :
    (exOk (T3ce.getitemInt 5) = true ↔ (5 : ℤ) < (T3ce.nrows : ℤ)) ∧
    (exOk (T3ce.setitem 5 (RowValue.tuple [9])) = true ↔
      (-(T3ce.nrows : ℤ) ≤ 5 ∧ (5 : ℤ) < (T3ce.nrows : ℤ))) :=
  row_bounds T3ce ⟨rfl, rfl, rfl, by decide, by decide, by decide⟩ 5 [9] rfl
    (by decide)

theorem mem_intRangeGo (x : ℤ) :
    ∀ (n : ℕ) (a : ℤ), x ∈ intRangeGo a n ↔ a ≤ x ∧ x < a + n := by
  intro n
  induction n with
  | zero =>
      intro a
      simp only [intRangeGo, List.not_mem_nil, false_iff]
      omega
  | succ m ih =>
      intro a
      simp only [intRangeGo, List.mem_cons, ih (a + 1)]
      constructor
      · intro h
        rcases h with h | h <;> omega
      · intro h
        by_cases hx : x = a
        · exact Or.inl hx
        · right
          omega

theorem mem_intRange (a b x : ℤ) : x ∈ intRange a b ↔ a ≤ x ∧ x < b := by
  unfold intRange
  rw [mem_intRangeGo]
  constructor
  · intro h
    omega
  · intro h
    omega

theorem setSliceAux_ok (s : ℤ) (vals : List (List ℚ)) (hs : 0 ≤ s) :
    ∀ (l : List ℤ) (t : FITS_rec), t.WF →
      (∀ rowv ∈ vals, rowv.length = t.nfields) →
      (∀ x ∈ l, s ≤ x ∧ x < (t.nrows : ℤ) ∧ x - s < (vals.length : ℤ)) →
      ∃ t2, setSliceAux s vals t l = .ok t2 ∧ t2.WF ∧
        t2.names = t.names ∧ t2.specs = t.specs ∧ t2.nrows = t.nrows ∧
        (∀ k, k < t.nfields → ∀ r : ℕ,
          t2.cellRead k r = if (r : ℤ) ∈ l then
            (vals.getD ((r : ℤ) - s).toNat []).getD k 0 else t.cellRead k r) := by
  intro l
  induction l with
  | nil =>
      intro t wf _ _
      exact ⟨t, rfl, wf, rfl, rfl, rfl, by intro k _ r; rw [if_neg (by simp)]⟩
  | cons x rest ih =>
      intro t wf hv hbound
      obtain ⟨hx1, hx2, hx3⟩ := hbound x (List.mem_cons_self _ _)
      have hrowlen : (vals.getD (x - s).toNat []).length = t.nfields :=
        hv _ (getD_mem_of_lt _ _ _ (by omega))
      obtain ⟨t1, heq1, wf1, hn1, hs1, hr1, heff1⟩ :=
        setitem_tuple_ok wf hrowlen (by omega) hx2
      obtain ⟨t2, heq2, wf2, hn2, hs2, hr2, heff2⟩ :=
        ih t1 wf1
          (fun rowv hrv => by rw [nfields_eq_of_names hn1]; exact hv rowv hrv)
          (fun y hy => by
            rw [hr1]
            exact hbound y (List.mem_cons_of_mem _ hy))
      refine ⟨t2, ?_, wf2, by rw [hn2, hn1], by rw [hs2, hs1], by rw [hr2, hr1], ?_⟩
      · simp only [setSliceAux]
        rw [heq1]
        exact heq2
      · intro k hk r
        rw [heff2 k (by rw [nfields_eq_of_names hn1]; exact hk) r]
        by_cases hmem : (r : ℤ) ∈ rest
        · rw [if_pos hmem, if_pos (List.mem_cons_of_mem _ hmem)]
        · rw [if_neg hmem, heff1 (by omega) k r]
          by_cases hrx : (r : ℤ) = x
          · rw [if_pos ⟨hk, by omega⟩, if_pos (by rw [hrx]; exact List.mem_cons_self _ _),
              hrx]
          · rw [if_neg (by rintro ⟨-, hc⟩; omega),
              if_neg (by
                intro hc
                rcases List.mem_cons.mp hc with hc2 | hc2
                · exact hrx hc2
                · exact hmem hc2)]

/-- C10: row-range assignment `__setslice__(start, end, values)` never
raises for any combination of bounds and value count (given well-formed
row tuples): the affected rows are exactly those of
`[max(0, start), min(row_count, end, max(0, start) + len(values)))`,
each assigned from `values` in order, and both excess values and excess
range positions are silently ignored. -/
theorem setslice_spec (t : FITS_rec) (wf : t.WF) (a b : ℤ) (vals : List (List ℚ))
    (hv : ∀ rowv ∈ vals, rowv.length = t.nfields) :
    ∃ t2, t.setslice a b vals = .ok t2 ∧
      ∀ k, k < t.nfields → ∀ r : ℕ, r < t.nrows →
        t2.cellRead k r =
          if max 0 a ≤ (r : ℤ) ∧
              (r : ℤ) < min (t.nrows : ℤ) (min b (max 0 a + (vals.length : ℤ))) then
            (vals.getD ((r : ℤ) - max 0 a).toNat []).getD k 0
          else t.cellRead k r := by
  obtain ⟨t2, heq, _, _, _, _, heff⟩ :=
    setSliceAux_ok (max 0 a) vals (by omega)
      (intRange (max 0 a)
        (min (max 0 (min (t.nrows : ℤ) b)) (max 0 a + (vals.length : ℤ))))
      t wf hv
      (fun x hx => by
        rw [mem_intRange] at hx
        refine ⟨hx.1, by omega, by omega⟩)
  refine ⟨t2, heq, ?_⟩
  intro k hk r hr
  rw [heff k hk r]
  by_cases hcond : max 0 a ≤ (r : ℤ) ∧
      (r : ℤ) < min (t.nrows : ℤ) (min b (max 0 a + (vals.length : ℤ)))
  · rw [if_pos hcond, if_pos (by rw [mem_intRange]; omega)]
  · rw [if_neg hcond, if_neg (by rw [mem_intRange]; omega)]

/-- Witness for `setslice_spec`: assign rows `1:5` of the three-row
table from two value tuples (rows 1 and 2 are written, row 3 of the
range and nothing else is touched, and no error is raised). -/
theorem setslice_spec_witness :
    ∃ t2, T3ce.setslice 1 5 [[7], [8]] = .ok t2 ∧
      ∀ k, k < T3ce.nfields → ∀ r : ℕ, r < T3ce.nrows →
        t2.cellRead k r =
          if max 0 1 ≤ (r : ℤ) ∧
              (r : ℤ) < min (T3ce.nrows : ℤ) (min 5 (max 0 1 + (([[7], [8]] :
                List (List ℚ)).length : ℤ))) then
            (([[7], [8]] : List (List ℚ)).getD ((r : ℤ) - max 0 1).toNat []).getD k 0
          else T3ce.cellRead k r :=
  setslice_spec T3ce ⟨rfl, rfl, rfl, by decide, by decide, by decide⟩ 1 5 [[7], [8]]
    (by decide)

theorem getIndexName_getD (names : List String) :
    ∀ i : ℕ, names.Nodup → i < names.length →
      getIndexName names (names.getD i NOSTR) = .ok i := by
  induction names with
  | nil =>
      intro i _ h
      exact absurd h (by simp)
  | cons n rest ih =>
      intro i hnd hi
      cases i with
      | zero => simp [getIndexName]
      | succ m =>
          have hm : m < rest.length := by simpa using hi
          have hne : n ≠ rest.getD m NOSTR := by
            intro hc
            have hmem : rest.getD m NOSTR ∈ rest := getD_mem_of_lt _ _ _ hm
            rw [← hc] at hmem
            exact (List.nodup_cons.mp hnd).1 hmem
          have hgd : (n :: rest).getD (m + 1) NOSTR = rest.getD m NOSTR := rfl
      
          simp only [getIndexName, hgd]
          rw [if_neg hne, ih m (List.nodup_cons.mp hnd).2 hm]
          rfl

theorem getitemName_ok {v : FITS_record} (wfv : v.array.WF) {i : ℕ}
    (hi : i < v.array.nfields) (hw1 : v.start ≤ (i : ℤ)) (hw2 : (i : ℤ) ≤ v.stop - 1)
    {vrow : ℕ} (hvr : v.row = (vrow : ℤ)) (hrow : vrow < v.array.nrows) :
    v.getitemName (v.array.names.getD i NOSTR) = .ok (v.array.cellRead i vrow) := by
  unfold FITS_record.getitemName
  rw [getIndexName_getD _ i wfv.names_nodup (by exact hi)]
  have hbody : (if (i : ℤ) < v.start ∨ (i : ℤ) > v.stop - 1 then
      (Except.error PyErr.keyError : Except PyErr ℚ)
    else pyGetCell ((v.array.field i).1) v.row) = .ok (v.array.cellRead i vrow) := by
    rw [if_neg (by push_neg; exact ⟨by omega, by omega⟩), hvr]
    exact pyGetCell_ok wfv hi vrow hrow
  exact hbody

theorem getitemName_out_of_window {v : FITS_record} (wfv : v.array.WF) {i : ℕ}
    (hi : i < v.array.nfields)
    (hw : (i : ℤ) < v.start ∨ v.stop - 1 < (i : ℤ)) :
    v.getitemName (v.array.names.getD i NOSTR) = .error .keyError := by
  unfold FITS_record.getitemName
  rw [getIndexName_getD _ i wfv.names_nodup (by exact hi)]
  have hbody : (if (i : ℤ) < v.start ∨ (i : ℤ) > v.stop - 1 then
      (Except.error PyErr.keyError : Except PyErr ℚ)
    else pyGetCell ((v.array.field i).1) v.row) = .error .keyError :=
    if_pos hw
  exact hbody

theorem setFieldsFromView_ok (v : FITS_record) (row : ℤ) (wfv : v.array.WF)
    (vrow : ℕ) (hvr : v.row = (vrow : ℤ)) (hvrow : vrow < v.array.nrows) :
    ∀ (l : List ℕ) (t : FITS_rec), t.WF → t.names = v.array.names →
      0 ≤ row → row < (t.nrows : ℤ) →
      (∀ i ∈ l, i < t.nfields ∧ v.start ≤ (i : ℤ) ∧ (i : ℤ) ≤ v.stop - 1) →
      ∃ t2, setFieldsFromView t row v l = .ok t2 ∧ t2.WF ∧
        t2.names = t.names ∧ t2.nrows = t.nrows ∧
        (∀ k r, t2.cellRead k r =
          if k ∈ l ∧ r = row.toNat then v.array.cellRead k vrow
          else t.cellRead k r) := by
  intro l
  induction l with
  | nil =>
      intro t wf _ _ _ _
      exact ⟨t, rfl, wf, rfl, rfl, by intro k r; rw [if_neg (by simp)]⟩
  | cons indx rest ih =>
      intro t wf hnames h0 hhi hbound
      obtain ⟨hif, hw1, hw2⟩ := hbound indx (List.mem_cons_self _ _)
      have hiv : indx < v.array.nfields := by
        rw [← nfields_eq_of_names hnames]
        exact hif
      obtain ⟨t1, heq1, wf1, hn1, hs1, hr1, heff1⟩ :=
        setCellAt_ok wf hif (by omega) hhi (v.array.cellRead indx vrow)
      obtain ⟨t2, heq2, wf2, hn2, hr2, heff2⟩ :=
        ih t1 wf1 (by rw [hn1]; exact hnames) h0 (by rw [hr1]; exact hhi)
          (fun i hi2 => by
            rw [nfields_eq_of_names hn1]
            exact hbound i (List.mem_cons_of_mem _ hi2))
      have hstep : setFieldsFromView t row v (indx :: rest) =
          setFieldsFromView t1 row v rest := by
        simp only [setFieldsFromView]
        rw [hnames, getitemName_ok wfv hiv hw1 hw2 hvr hvrow, ← hnames,
          getIndexName_getD t.names indx wf.names_nodup hif]
        show (match t.setCellAt indx row (v.array.cellRead indx vrow) with
          | Except.error e => Except.error e
          | Except.ok tn => setFieldsFromView tn row v rest) =
            setFieldsFromView t1 row v rest
        rw [heq1]
      refine ⟨t2, ?_, wf2, by rw [hn2, hn1], by rw [hr2, hr1], ?_⟩
      · rw [hstep]
        exact heq2
      · intro k r
        rw [heff2 k r]
        by_cases hmem : k ∈ rest ∧ r = row.toNat
        · rw [if_pos hmem, if_pos ⟨List.mem_cons_of_mem _ hmem.1, hmem.2⟩]
        · rw [if_neg hmem, heff1 h0 k r]
          by_cases hk : k = indx ∧ r = row.toNat
          · rw [if_pos hk, if_pos ⟨by rw [hk.1]; exact List.mem_cons_self _ _, hk.2⟩,
              hk.1]
          · rw [if_neg hk, if_neg ?_]
            rintro ⟨hc1, hc2⟩
            rcases List.mem_cons.mp hc1 with hc | hc
            · exact hk ⟨hc, hc2⟩
            · exact hmem ⟨hc, hc2⟩

theorem setFieldsFromView_err (v : FITS_record) (row : ℤ) (wfv : v.array.WF)
    (vrow : ℕ) (hvr : v.row = (vrow : ℤ)) (hvrow : vrow < v.array.nrows) :
    ∀ (l : List ℕ) (t : FITS_rec), t.WF → t.names = v.array.names →
      0 ≤ row → row < (t.nrows : ℤ) →
      (∀ i ∈ l, i < t.nfields) →
      (∃ i ∈ l, (i : ℤ) < v.start ∨ v.stop - 1 < (i : ℤ)) →
      setFieldsFromView t row v l = .error .keyError := by
  intro l
  induction l with
  | nil =>
      intro t _ _ _ _ _ hex
      obtain ⟨i, hi, -⟩ := hex
      exact absurd hi (by simp)
  | cons indx rest ih =>
      intro t wf hnames h0 hhi hbound hex
      have hif : indx < t.nfields := hbound indx (List.mem_cons_self _ _)
      have hiv : indx < v.array.nfields := by
        rw [← nfields_eq_of_names hnames]
        exact hif
      by_cases hwin : (indx : ℤ) < v.start ∨ v.stop - 1 < (indx : ℤ)
      · simp only [setFieldsFromView]
        rw [hnames, getitemName_out_of_window wfv hiv hwin]
      · push_neg at hwin
        obtain ⟨t1, heq1, wf1, hn1, hs1, hr1, heff1⟩ :=
          setCellAt_ok wf hif (by omega) hhi (v.array.cellRead indx vrow)
        have hstep : setFieldsFromView t row v (indx :: rest) =
            setFieldsFromView t1 row v rest := by
          simp only [setFieldsFromView]
          rw [hnames, getitemName_ok wfv hiv hwin.1 hwin.2 hvr hvrow, ← hnames,
            getIndexName_getD t.names indx wf.names_nodup hif]
          show (match t.setCellAt indx row (v.array.cellRead indx vrow) with
            | Except.error e => Except.error e
            | Except.ok tn => setFieldsFromView tn row v rest) =
              setFieldsFromView t1 row v rest
          rw [heq1]
        rw [hstep]
        refine ih t1 wf1 (by rw [hn1]; exact hnames) h0 (by rw [hr1]; exact hhi)
          (fun i hi2 => by
            rw [nfields_eq_of_names hn1]
            exact hbound i (List.mem_cons_of_mem _ hi2)) ?_
        obtain ⟨i, hi2, hiw⟩ := hex
        rcases List.mem_cons.mp hi2 with hc | hc
        · exfalso
          rw [hc] at hiw
          rcases hiw with hiw | hiw <;> omega
        · exact ⟨i, hc, hiw⟩

/-- C6 (amended): whole-row assignment from a Record View iterates over
*all* of the target's column names and looks each one up in the view, so
it succeeds — copying every field by name — exactly when the view's
window covers every column; as soon as it reaches a column name whose
index falls outside the window it raises `KeyError` (NameOutOfWindow),
so a view whose window is a proper subset of the columns always fails. -/
theorem setrow_view_window (t : FITS_rec) (wf : t.WF) (row vrow : ℕ)
    (hrow : row < t.nrows) (hvrow : vrow < t.nrows) (s e : ℤ) :
    ((s ≤ 0 ∧ (t.nfields : ℤ) ≤ e) →
      ∃ t2, t.setitem (row : ℤ) (RowValue.record ⟨t, (vrow : ℤ), s, e⟩) = .ok t2 ∧
        ∀ k, k < t.nfields → ∀ r, r < t.nrows →
          t2.cellRead k r = if r = row then t.cellRead k vrow
          else t.cellRead k r) ∧
    ((0 < s ∨ e < (t.nfields : ℤ)) → 0 < t.nfields →
      t.setitem (row : ℤ) (RowValue.record ⟨t, (vrow : ℤ), s, e⟩) =
        .error .keyError) := by
  constructor
  · rintro ⟨hs, he⟩
    obtain ⟨t2, heq, wf2, hn2, hr2, heff⟩ :=
      setFieldsFromView_ok ⟨t, (vrow : ℤ), s, e⟩ (row : ℤ) wf vrow rfl hvrow
        (List.range t.nfields) t wf rfl (by positivity) (by exact_mod_cast hrow)
        (fun i hi => by
          have hilt := List.mem_range.mp hi
          refine ⟨hilt, ?_, ?_⟩
          · show s ≤ (i : ℤ)
            omega
          · show (i : ℤ) ≤ e - 1
            omega)
    refine ⟨t2, ?_, ?_⟩
    · simp only [FITS_rec.setitem]
      exact heq
    · intro k hk r hr
      rw [heff k r]
      by_cases hcase : r = row
      · rw [if_pos ⟨List.mem_range.mpr hk, by omega⟩, if_pos hcase]
      · rw [if_neg (by rintro ⟨-, hc⟩; omega), if_neg hcase]
  · intro hviol hnf
    simp only [FITS_rec.setitem]
    refine setFieldsFromView_err ⟨t, (vrow : ℤ), s, e⟩ (row : ℤ) wf vrow rfl hvrow
      (List.range t.nfields) t wf rfl (by positivity) (by exact_mod_cast hrow)
      (fun i hi => List.mem_range.mp hi) ?_
    rcases hviol with hviol | hviol
    · refine ⟨0, List.mem_range.mpr hnf, Or.inl ?_⟩
      show ((0 : ℕ) : ℤ) < s
      omega
    · by_cases he0 : 0 ≤ e
      · refine ⟨e.toNat, List.mem_range.mpr (by omega), Or.inr ?_⟩
        show e - 1 < (e.toNat : ℤ)
        omega
      · refine ⟨0, List.mem_range.mpr hnf, Or.inr ?_⟩
        show e - 1 < ((0 : ℕ) : ℤ)
        omega

/-- A two-column, two-row table of plain columns. -/
def T2ce : FITS_rec := ⟨["a", "b"], [SFd, SFd], [[1, 2], [3, 4]], [none, none]⟩

/-- C6 (counterexample): assigning a row from a view whose window is the
proper subset `[0, 1)` of the two columns raises `KeyError` when the
loop reaches the out-of-window name `b` — the claim that such an
assignment raises no error and leaves the outside columns unchanged is
false. -/
theorem setrow_view_ce :
    T2ce.setitem 0 (RowValue.record ⟨T2ce, 0, 0, 1⟩) = .error .keyError := by
  rfl

/-- Witness for `setrow_view_window`: copy row 1 onto row 0 of `T2ce`
through a full-window view. -/
theorem setrow_view_window_witness :
    ∃ t2, T2ce.setitem (((0 : ℕ)) : ℤ)
        (RowValue.record ⟨T2ce, (((1 : ℕ)) : ℤ), 0, 2⟩) = .ok t2 ∧
      ∀ k, k < T2ce.nfields → ∀ r, r < T2ce.nrows →
        t2.cellRead k r = if r = 0 then T2ce.cellRead k 1 else T2ce.cellRead k r :=
  (setrow_view_window T2ce ⟨rfl, rfl, rfl, by decide, by decide, by decide⟩ 0 1
    (by decide) (by decide) 0 2).1 ⟨by decide, by decide⟩

/-! ### ASCII-table layout checks in `_scale_back`

`_scale_back` (`fitsrec.py` lines 423-429 and 470-482) builds `_loc`
from `self._coldefs.starts` (the same declared starting positions) plus
one appended entry `starts[-1] + itemsize` for the end of the last
column, then for every *materialised* column checks
`_lead = starts[indx] - _loc[indx]` and
`_trail = _loc[indx+1] - _width[indx] - starts[indx]`, raising on a
negative value. -/

structure AsciiCol where
  start : ℤ
  width : ℤ
  itemsize : ℤ
  materialized : Bool
deriving DecidableEq

/-- Default ASCII column (out-of-range accesses only). -/
def ACd : AsciiCol := ⟨0, 0, 0, false⟩

/-- The `_loc` list: the declared starts plus the appended end of the
last column (`_loc.append(_loc[-1] + ...itemsize)`). -/
def asciiLocs (cols : List AsciiCol) : List ℤ :=
  (cols.map AsciiCol.start) ++
    [(cols.getLastD ACd).start + (cols.getLastD ACd).itemsize]

/-- The quantity `_lead = self._coldefs.starts[indx] - _loc[indx]` the
leading-overlap check compares against zero. -/
def asciiLead (cols : List AsciiCol) (indx : ℕ) : ℤ :=
  (cols.getD indx ACd).start - (asciiLocs cols).getD indx 0

/-- The quantity `_trail = _loc[indx+1] - _width[indx] - starts[indx]`. -/
def asciiTrail (cols : List AsciiCol) (indx : ℕ) : ℤ :=
  (asciiLocs cols).getD (indx + 1) 0 - (cols.getD indx ACd).width -
    (cols.getD indx ACd).start

/-- The overlap scan of `_scale_back`: walk the columns in order and
report the first materialised column whose computed lead or trail is
negative (the column the pass raises on), or `none` when the pass
completes without an overlap error. -/
def asciiOverlapError (cols : List AsciiCol) : Option ℕ :=
  (List.range cols.length).find? (fun indx =>
    (cols.getD indx ACd).materialized &&
      (decide (asciiLead cols indx < 0) || decide (asciiTrail cols indx < 0)))

theorem asciiLead_eq_zero (cols : List AsciiCol) (indx : ℕ)
    (h : indx < cols.length) : asciiLead cols indx = 0 := by
  unfold asciiLead asciiLocs
  rw [List.getD_eq_getElem?_getD (List.map AsciiCol.start cols ++ _),
    List.getElem?_append,
    if_pos (show indx < (List.map AsciiCol.start cols).length by
      rw [List.length_map]; exact h),
    List.getElem?_map]
  cases hc : cols[indx]? with
  | none =>
      rw [List.getElem?_eq_getElem h] at hc
      exact absurd hc (by simp)
  | some c =>
      have h2 : cols.getD indx ACd = c := by
        rw [List.getD_eq_getElem?_getD, hc]
        rfl
      rw [h2]
      simp

/-- The columns of the failing input: column 0 occupies `[1, 11)` but is
not materialised; column 1 is declared at start 5 (overlapping column
0's range) and is materialised. -/
def C5cols : List AsciiCol := [⟨1, 10, 10, false⟩, ⟨5, 3, 3, true⟩]

/-- C5: the claim requires an `OverlapError` for every materialised
column whose leading gap (declared start minus the previous column's
end) is negative; on `C5cols` that gap is `5 - (1 + 10) = -6 < 0` for
the materialised column 1, yet the pass's computed lead is identically
`0` (it subtracts the column's own start from itself because `_loc`
holds the very same `starts` list), so the scan reports no overlap at
all and the overlapping layout is accepted silently. -/
theorem ascii_overlap_bug :
    ((C5cols.getD 1 ACd).start -
      ((C5cols.getD 0 ACd).start + (C5cols.getD 0 ACd).width) = -6) ∧
    (C5cols.getD 1 ACd).materialized = true ∧
    asciiLead C5cols 1 = 0 ∧
    asciiTrail C5cols 1 = 0 ∧
    asciiOverlapError C5cols = none := by
  refine ⟨by decide, by decide, by decide, by decide, by decide⟩

/-! ### ASCII-table numeric decode (`field`, `fitsrec.py` lines 382-395)

For a `TableHDU` numeric column, `field` replaces the FITS double
exponent marker `D` by `E`, substitutes the printed `ASCIITNULL` value
for every entry whose stripped text equals the column's (stripped) null
sentinel, and parses the resulting texts as the column's numeric kind.
The numeric parser (`numpy.array(..., dtype)`) and the `ASCIITNULL`
constant live outside this module, so the parser is a parameter and the
null value an argument here. -/

/-- The replacement `chararray.replace` of `D` by `E` on one text cell. -/
def replaceDE : List Char → List Char
  | [] => []
  | c :: cs => (if c = 'D' then 'E' else c) :: replaceDE cs

/-- Python `str.strip()`: drop leading and trailing whitespace. -/
def pyStrip (s : List Char) : List Char :=
  ((s.dropWhile Char.isWhitespace).reverse.dropWhile Char.isWhitespace).reverse

/-- The null sentinel text of the claim. -/
def NULLSTR : List Char := "NULL".data

/-- One cell of the ASCII numeric decode: normalise `D` to `E`, replace
a null-sentinel entry by the printed null value, then parse. -/
def decodeAsciiNumericCell (parse : List Char → Option ℚ)
    (nullSentinel : List Char) (tnull : ℤ) (s : List Char) : Option ℚ :=
  if pyStrip (replaceDE s) = nullSentinel then parse (toString tnull).data
  else parse (replaceDE s)

/-- The full-column ASCII numeric decode. -/
def decodeAsciiNumericCol (parse : List Char → Option ℚ)
    (nullSentinel : List Char) (tnull : ℤ) (rows : List (List Char)) :
    List (Option ℚ) :=
  rows.map (decodeAsciiNumericCell parse nullSentinel tnull)

theorem replaceDE_eq_map (s : List Char) :
    replaceDE s = s.map (fun c => if c = 'D' then 'E' else c) := by
  induction s with
  | nil => rfl
  | cons a tl ih => simp [replaceDE, ih]

theorem dropWhile_map {α : Type _} (f : α → α) (p : α → Bool)
    (hf : ∀ c, p (f c) = p c) :
    ∀ l : List α, (l.map f).dropWhile p = (l.dropWhile p).map f := by
  intro l
  induction l with
  | nil => rfl
  | cons a tl ih =>
      rw [List.map_cons, List.dropWhile_cons, List.dropWhile_cons, hf a]
      by_cases hp : p a = true
      · rw [if_pos hp, if_pos hp]
        exact ih
      · rw [if_neg hp, if_neg hp, List.map_cons]

theorem pyStrip_replaceDE (s : List Char) :
    pyStrip (replaceDE s) = replaceDE (pyStrip s) := by
  have hf : ∀ c : Char, (if c = 'D' then 'E' else c).isWhitespace = c.isWhitespace := by
    intro c
    by_cases h : c = 'D'
    · rw [if_pos h, h]
      decide
    · rw [if_neg h]
  rw [replaceDE_eq_map, replaceDE_eq_map]
  unfold pyStrip
  rw [dropWhile_map _ _ hf, ← List.map_reverse, dropWhile_map _ _ hf,
    ← List.map_reverse]

theorem replaceChar_eq_iff (a b : Char) (hbD : b ≠ 'D') (hbE : b ≠ 'E') :
    ((if a = 'D' then 'E' else a) = b) ↔ a = b := by
  by_cases h : a = 'D'
  · rw [if_pos h]
    constructor
    · intro hc
      exact absurd hc.symm hbE
    · intro hc
      rw [h] at hc
      exact absurd hc.symm hbD
  · rw [if_neg h]

theorem replaceDE_eq_iff :
    ∀ (s tgt : List Char), (∀ c ∈ tgt, c ≠ 'D' ∧ c ≠ 'E') →
      (replaceDE s = tgt ↔ s = tgt) := by
  intro s
  induction s with
  | nil =>
      intro tgt _
      cases tgt <;> simp [replaceDE]
  | cons a tl ih =>
      intro tgt htgt
      cases tgt with
      | nil => simp [replaceDE]
      | cons b bs =>
          obtain ⟨hbD, hbE⟩ := htgt b (List.mem_cons_self _ _)
          simp only [replaceDE, List.cons.injEq]
          rw [replaceChar_eq_iff a b hbD hbE,
            ih bs (fun c hc => htgt c (List.mem_cons_of_mem _ hc))]

/-- C9: for an ASCII numeric column whose null sentinel is `NULL`, every
cell whose *stripped stored text* equals `NULL` decodes to the parsed
null value (never a parse failure), and every other cell is parsed as
the declared kind after the `D`-to-`E` exponent normalisation; the
column decode applies this rule to each row. -/
theorem ascii_null_sentinel (parse : List Char → Option ℚ) (tnull : ℤ) (nv : ℚ)
    (hp : parse (toString tnull).data = some nv) (rows : List (List Char)) :
    (∀ s ∈ rows,
      (pyStrip s = NULLSTR →
        decodeAsciiNumericCell parse NULLSTR tnull s = some nv) ∧
      (pyStrip s ≠ NULLSTR →
        decodeAsciiNumericCell parse NULLSTR tnull s = parse (replaceDE s))) ∧
    decodeAsciiNumericCol parse NULLSTR tnull rows =
      rows.map (decodeAsciiNumericCell parse NULLSTR tnull) := by
  refine ⟨?_, rfl⟩
  intro s _
  have hiff : pyStrip (replaceDE s) = NULLSTR ↔ pyStrip s = NULLSTR := by
    rw [pyStrip_replaceDE]
    exact replaceDE_eq_iff (pyStrip s) NULLSTR (by decide)
  constructor
  · intro h
    unfold decodeAsciiNumericCell
    rw [if_pos (hiff.mpr h)]
    exact hp
  · intro h
    unfold decodeAsciiNumericCell
    rw [if_neg (fun hc => h (hiff.mp hc))]

/-- A parser recognising only the printed integer zero (enough to
witness the null substitution). -/
def parseZeroOnly : List Char → Option ℚ :=
  fun l => if l = (toString (0 : ℤ)).data then some 0 else none

/-- Witness for `ascii_null_sentinel`: the padded cell `" NULL "` of an
ASCII numeric column decodes to the (parsed) null value 0. -/
theorem ascii_null_sentinel_witness :
    decodeAsciiNumericCell parseZeroOnly NULLSTR 0 (" NULL ".data) = some 0 :=
  ((ascii_null_sentinel parseZeroOnly 0 0
      (by show (if (toString (0 : ℤ)).data = (toString (0 : ℤ)).data
            then some (0 : ℚ) else none) = some 0
          rw [if_pos rfl])
      [(" NULL ".data)]).1 (" NULL ".data)
    (List.mem_cons_self _ _)).1 (by decide)
